import Mathlib

/-!
# go-test-xunit: the aggregation and parsing core of `main.go`

A shallow embedding of `report` (grouping of events by package, the per-suite
aggregation loop, the second pass that correlates output with failures, the document
handed to the encoder), of `runTests` (argument list, child process, parsing loop) and of
`main`, followed by the properties proved about them.

Conventions of the embedding.
* A Go `string` is a Lean `String`; `strings.HasPrefix` and `strings.Contains` are
  taken on the character lists.
* A `float64` is held as its IEEE-754 bit pattern (a `Nat`): `report` only copies
  `Elapsed` into `Time`, it never computes with it.
* A Go `int` counter is a `Nat`: a counter is bounded by the length of a slice.
* A Go `map[string]V` is an association list with at most one entry per key.
* A `*testFailure` is an address into a store of `testFailure` values.
* A byte is a `Nat`.
* The operating system and the libraries `bufio`, `encoding/json`, `encoding/xml` are not
  part of the program: the scanner is modelled by the tokens it delivers, the decoder is
  a parameter, `report` takes the serialiser as a parameter and `goEncoder` is the one of
  `encoding/xml`, the outcome of the system calls is given by a `World`.
-/

namespace GoTestXunit

/-! ## Data model (`main.go` lines 16-23 and 82-102) -/

/-- The struct `testEvent`. -/
structure testEvent where
  Test : String
  Elapsed : Nat
  Action : String
  Package : String
  Output : String
deriving DecidableEq

/-- The struct `testFailure` declared inside `report`; `Typ` is the field `Type`. -/
structure testFailure where
  Typ : String
  Message : String
  Output : String
deriving DecidableEq

/-- The struct `testCase` as `report` builds it: `Failure` is a pointer, nil or the
address of a `testFailure` in the store. -/
structure testCasePtr where
  Classname : String
  Name : String
  Time : Nat
  Failure : Option Nat
deriving DecidableEq

/-- The struct `testCase` as the encoder reads it, the pointer followed. -/
structure testCase where
  Classname : String
  Name : String
  Time : Nat
  Failure : Option testFailure
deriving DecidableEq

/-- The struct `testSuite`. -/
structure testSuite where
  Name : String
  Tests : Nat
  Errors : Nat
  Failures : Nat
  Skip : Nat
  TestCases : List testCase
deriving DecidableEq

/-! ## Go maps keyed by strings -/

/-- A `map[string]V`. -/
abbrev GoMap (V : Type) := List (String × V)

/-- The lookup `v, ok := m[k]`. -/
def GoMap.get {V : Type} (m : GoMap V) (k : String) : Option V :=
  match m with
  | [] => none
  | (k', v) :: rest => if k' = k then some v else GoMap.get rest k

/-- The assignment `m[k] = v`. -/
def GoMap.set {V : Type} (m : GoMap V) (k : String) (v : V) : GoMap V :=
  match m with
  | [] => [(k, v)]
  | (k', v') :: rest => if k' = k then (k, v) :: rest else (k', v') :: GoMap.set rest k v

/-- The builtin `len(m)`. -/
def GoMap.len {V : Type} (m : GoMap V) : Nat := m.length

/-! ## Strings -/

/-- The function `strings.HasPrefix`. -/
def hasPrefix (s pre : String) : Bool := pre.data.isPrefixOf s.data

/-- Whether `sub` occurs in `l` as a contiguous block. -/
def containsList (sub : List Char) : List Char → Bool
  | [] => sub.isPrefixOf []
  | c :: rest => sub.isPrefixOf (c :: rest) || containsList sub rest

/-- The function `strings.Contains`. -/
def contains (s sub : String) : Bool := containsList sub.data s.data

/-! ## `report`, first loop: grouping by package (lines 71-80) -/

/-- One iteration of the loop over `events` that fills `pkgOrder` and `pkgs`. -/
def report.groupStep (st : List String × GoMap (List testEvent)) (ev : testEvent) :
    List String × GoMap (List testEvent) :=
  let pkgOrder := if (st.2.get ev.Package).isNone then st.1 ++ [ev.Package] else st.1
  (pkgOrder, st.2.set ev.Package ((st.2.get ev.Package).getD [] ++ [ev]))

/-- The pair `(pkgOrder, pkgs)` after the first loop. -/
def report.group (events : List testEvent) : List String × GoMap (List testEvent) :=
  events.foldl report.groupStep ([], [])

/-! ## `report`, the loop over `pkgOrder` (lines 104-161) -/

/-- The variables of one iteration of the loop over `pkgOrder`: the counters and test
cases of `suite`, the store of the `testFailure` values allocated so far, and the map
`failures`. A `testFailure` is written only through the map `failures` of the iteration
that allocated it, so every iteration has a store of its own. -/
structure suiteState where
  Tests : Nat
  Failures : Nat
  Skip : Nat
  TestCases : List testCasePtr
  store : List testFailure
  failures : GoMap Nat
deriving DecidableEq

/-- The state at `suite := &testSuite{Name: pkg}`, `failures := make(...)`. -/
def suiteState.init : suiteState := ⟨0, 0, 0, [], [], []⟩

/-- One iteration of the loop over `pkgs[pkg]` (lines 110-142). -/
def report.caseStep (pkg : String) (st : suiteState) (ev : testEvent) : suiteState :=
  if ev.Test = "" then st
  else if ev.Action = "pass" then
    { st with
      Tests := st.Tests + 1
      TestCases := st.TestCases ++ [⟨pkg, ev.Test, ev.Elapsed, none⟩] }
  else if ev.Action = "fail" then
    let f := st.store.length
    { st with
      Tests := st.Tests + 1
      Failures := st.Failures + 1
      store := st.store ++ [⟨"go.error", "error", ""⟩]
      TestCases := st.TestCases ++ [⟨pkg, ev.Test, ev.Elapsed, some f⟩]
      failures := st.failures.set ev.Test f }
  else if ev.Action = "skip" then
    { st with
      Tests := st.Tests + 1
      Skip := st.Skip + 1
      TestCases := st.TestCases ++ [⟨pkg, ev.Test, ev.Elapsed, none⟩] }
  else st

/-- One iteration of the second loop over `events` (lines 148-159): only the store of
failures is written. -/
def report.outputStep (failures : GoMap Nat) (store : List testFailure) (ev : testEvent) :
    List testFailure :=
  if ev.Action ≠ "output" then store
  else
    match failures.get ev.Test with
    | none => store
    | some a =>
      if !hasPrefix ev.Output "=== RUN" && !contains ev.Output "--- FAIL" then
        store.modify (fun f => { f with Output := f.Output ++ ev.Output }) a
      else store

/-- Following the pointer of a test case. -/
def testCasePtr.deref (store : List testFailure) (tc : testCasePtr) : testCase :=
  ⟨tc.Classname, tc.Name, tc.Time, tc.Failure.bind (fun a => store[a]?)⟩

/-- The body of the loop over `pkgOrder` for one `pkg`, where `pkgEvents` is
`pkgs[pkg]`: the suite as it stands once `report` reaches the encoder. -/
def report.suite (events : List testEvent) (pkg : String) (pkgEvents : List testEvent) :
    testSuite :=
  let st := pkgEvents.foldl (report.caseStep pkg) suiteState.init
  let store :=
    if st.failures.len = 0 then st.store
    else events.foldl (report.outputStep st.failures) st.store
  ⟨pkg, st.Tests, 0, st.Failures, st.Skip, st.TestCases.map (testCasePtr.deref store)⟩

/-- The slice `testSuites` that `report` hands to the encoder. -/
def report.testSuites (events : List testEvent) : List testSuite :=
  let g := report.group events
  g.1.map (fun pkg => report.suite events pkg ((g.2.get pkg).getD []))

/-! ## `runTests`, the parsing loop (lines 57-67)

The loop reads the captured file through a `bufio.Scanner` with its defaults (the split
function `ScanLines`, the token limit `MaxScanTokenSize`) and decodes each token with
`json.Unmarshal` into a fresh `testEvent`. Both belong to the standard library: the
scanner is modelled by the tokens it delivers, the decoder is a parameter. -/

/-- The errors the loop can leave in `err`. -/
inductive parseError where
  | decodeError
  | ErrTooLong
deriving DecidableEq

/-- The call `json.Unmarshal(scnr.Bytes(), &ev)` on a fresh `ev`: the decoded event, or
`none` for an error. The empty input is an error (`unexpected end of JSON input`). -/
structure Decoder where
  unmarshal : List Nat → Option testEvent
  empty_input : unmarshal [] = none

/-- The constant `bufio.MaxScanTokenSize`. -/
def maxScanTokenSize : Nat := 64 * 1024

/-- The function `dropCR` of `bufio`: one trailing carriage return is dropped. -/
def dropCR (line : List Nat) : List Nat :=
  if line.getLast? = some 13 then line.dropLast else line

/-- The scanner run to the end of the buffer: the tokens that the successive calls of
`Scan` deliver and the value of `Err()` afterwards. `cur` holds the bytes read since the
last newline; a line is a token when its newline lies within the first
`maxScanTokenSize` bytes, a last line without newline when it is non-empty and shorter
than that; otherwise the scanner stops with `ErrTooLong`. -/
def scanTokens : List Nat → List Nat → List (List Nat) × Option parseError
  | cur, [] =>
    if cur = [] then ([], none)
    else if maxScanTokenSize ≤ cur.length then ([], some parseError.ErrTooLong)
    else ([dropCR cur], none)
  | cur, b :: rest =>
    if b = 10 then
      if maxScanTokenSize ≤ cur.length then ([], some parseError.ErrTooLong)
      else (dropCR cur :: (scanTokens [] rest).1, (scanTokens [] rest).2)
    else scanTokens (cur ++ [b]) rest

/-- The loop `for scnr.Scan()` followed by `err = scnr.Err()`, on the tokens still to come:
the named results `events` and `err` at the `return`. -/
def runTests.parseLoop (d : Decoder) (scanErr : Option parseError) :
    List testEvent → List (List Nat) → List testEvent × Option parseError
  | events, [] => (events, scanErr)
  | events, tok :: rest =>
    match d.unmarshal tok with
    | none => (events, some parseError.decodeError)
    | some ev => runTests.parseLoop d scanErr (events ++ [ev]) rest

/-- Lines 57-67 of `runTests` on the captured bytes. -/
def runTests.parse (d : Decoder) (buf : List Nat) : List testEvent × Option parseError :=
  runTests.parseLoop d (scanTokens [] buf).2 [] (scanTokens [] buf).1

/-! ## `runTests` as a whole (lines 25-68)

What the operating system contributes is gathered in a `World`: the command line, whether
the temporary file can be created and rewound, and what the child process does with the
arguments it is given. Reads of the rewound file are taken to succeed. -/

/-- The loop of lines 26-31 on `os.Args[1:]`. -/
def runTests.forward (rest : List String) : List String :=
  rest.foldl (fun args arg => if arg ≠ "-json" then args ++ [arg] else args) ["test", "-json"]

/-- The slice `args` after line 31, for the value of `os.Args`; the slice expression
`os.Args[1:]` is out of range when `os.Args` is empty. -/
def runTests.args (osArgs : List String) : Option (List String) :=
  match osArgs with
  | [] => none
  | _ :: rest => some (runTests.forward rest)

/-- What `cmd.Run()` returns: nil, an `*exec.ExitError` with its exit code, or an error
of another type. -/
inductive runResult where
  | success
  | exitError (code : Int)
  | otherError
deriving DecidableEq

/-- The errors `runTests` can return. -/
inductive runError where
  | tempFile
  | launch
  | seek
  | parse (e : parseError)
deriving DecidableEq

/-- The surroundings of one invocation of the program. `os.Args` is `prog :: cmdArgs`;
`child args` is the result of `cmd.Run()` for `go args...` and the bytes the child wrote
to its standard output; the last two fields say whether `report` can write the header and
the encoded document to its writer. -/
structure World where
  prog : String
  cmdArgs : List String
  tempFileOk : Bool
  child : List String → runResult × List Nat
  seekOk : Bool
  headerOk : Bool
  encodeOk : Bool

/-- The function `runTests`: the named results `events`, `exit` and `err` at the
`return` that is taken. -/
def runTests (d : Decoder) (w : World) : List testEvent × Int × Option runError :=
  let args := runTests.forward w.cmdArgs
  if w.tempFileOk = false then ([], 0, some runError.tempFile)
  else
    match (w.child args).1 with
    | runResult.otherError => ([], 0, some runError.launch)
    | runResult.exitError code =>
      if w.seekOk = false then ([], code, some runError.seek)
      else
        ((runTests.parse d (w.child args).2).1, code,
          (runTests.parse d (w.child args).2).2.map runError.parse)
    | runResult.success =>
      if w.seekOk = false then ([], 0, some runError.seek)
      else
        ((runTests.parse d (w.child args).2).1, 0,
          (runTests.parse d (w.child args).2).2.map runError.parse)

/-! ## `report`, the document (lines 82-102 and 162-172)

The struct tags fix how `encoding/xml` lays the values out as elements and attributes;
the document is held as a tree. Turning the tree into bytes (escaping of attribute values,
the form of a `float64`, the indentation set by `Indent`, the writing of character data as
`CDATA` sections) is the work of the library: `report` takes it as a parameter, and
`goEncoder` below is the serialiser of `encoding/xml`. -/

/-- The value of an attribute, by the Go type of the field it comes from. -/
inductive xmlValue where
  | string (s : String)
  | int (n : Nat)
  | float64 (bits : Nat)
deriving DecidableEq

/-- An attribute: a field tagged `xml:"name,attr"`. -/
structure xmlAttr where
  name : String
  value : xmlValue
deriving DecidableEq

/-- A node of the document: an element, or character data from a field tagged
`xml:",cdata"`, kept verbatim. -/
inductive xmlNode where
  | element (name : String) (attrs : List xmlAttr) (children : List xmlNode)
  | cdata (text : String)

/-- The serialisation of a document by `xml.Encoder` after `Indent("", "    ")`. -/
structure Encoder where
  encode : xmlNode → String

/-- The constant `xml.Header`. -/
def xmlHeader : String := "<?xml version=\"1.0\" encoding=\"UTF-8\"?>\n"

/-- The element of a `*testFailure`. -/
def testFailure.toXml (f : testFailure) : xmlNode :=
  xmlNode.element "failure"
    [⟨"type", xmlValue.string f.Typ⟩, ⟨"message", xmlValue.string f.Message⟩]
    [xmlNode.cdata f.Output]

/-- The element of a `*testCase`; a nil `Failure` gives no child. -/
def testCase.toXml (tc : testCase) : xmlNode :=
  xmlNode.element "testcase"
    [⟨"classname", xmlValue.string tc.Classname⟩, ⟨"name", xmlValue.string tc.Name⟩,
      ⟨"time", xmlValue.float64 tc.Time⟩]
    (match tc.Failure with
      | none => []
      | some f => [f.toXml])

/-- The element of a `*testSuite`. -/
def testSuite.toXml (s : testSuite) : xmlNode :=
  xmlNode.element "testsuite"
    [⟨"name", xmlValue.string s.Name⟩, ⟨"tests", xmlValue.int s.Tests⟩,
      ⟨"errors", xmlValue.int s.Errors⟩, ⟨"failures", xmlValue.int s.Failures⟩,
      ⟨"skip", xmlValue.int s.Skip⟩]
    (s.TestCases.map testCase.toXml)

/-- The element of the anonymous struct handed to `enc.Encode` (lines 167-172). -/
def report.documentOf (suites : List testSuite) : xmlNode :=
  xmlNode.element "testsuites" [] (suites.map testSuite.toXml)

/-- The document `report` encodes for the events. -/
def report.document (events : List testEvent) : xmlNode :=
  report.documentOf (report.testSuites events)

/-- The function `report`: what has been written to `w` when `report` returns nil, and
`none` when it returns an error. -/
def report (enc : Encoder) (headerOk encodeOk : Bool) (events : List testEvent) :
    Option String :=
  if headerOk = false then none
  else if encodeOk = false then none
  else some (xmlHeader ++ enc.encode (report.document events))

/-! ## The serialiser of `encoding/xml`

What `enc.Encode` writes for the document after `enc.Indent("", "    ")`: the printer of
`encoding/xml` with its indentation state, the escaping of attribute values and the
writing of character data as `CDATA`. The text of a `float64` (`strconv.FormatFloat` with
format `g`) is the one part left as a parameter. -/

/-- The function `isInCharacterRange` of `encoding/xml`. -/
def isInCharacterRange (c : Char) : Bool :=
  c.toNat = 0x09 || c.toNat = 0x0A || c.toNat = 0x0D ||
    (0x20 ≤ c.toNat && c.toNat ≤ 0xD7FF) ||
    (0xE000 ≤ c.toNat && c.toNat ≤ 0xFFFD) ||
    (0x10000 ≤ c.toNat && c.toNat ≤ 0x10FFFF)

/-- What `EscapeString` writes for one character. -/
def escapeChar (c : Char) : List Char :=
  if c.toNat = 34 then "&#34;".data
  else if c.toNat = 39 then "&#39;".data
  else if c.toNat = 38 then "&amp;".data
  else if c.toNat = 60 then "&lt;".data
  else if c.toNat = 62 then "&gt;".data
  else if c.toNat = 9 then "&#x9;".data
  else if c.toNat = 10 then "&#xA;".data
  else if c.toNat = 13 then "&#xD;".data
  else if isInCharacterRange c then [c]
  else [Char.ofNat 0xFFFD]

/-- The loop of `EscapeString` over the characters of a text. -/
def escapeChars : List Char → List Char
  | [] => []
  | c :: rest => escapeChar c ++ escapeChars rest

/-- The method `EscapeString` of the printer: the text written for an attribute value. -/
def escapeString (s : String) : String := ⟨escapeChars s.data⟩

/-- The loop of `emitCDATA`: every `]]>` of the text is written as `]]]]><![CDATA[>`. -/
def cdataChars : List Char → List Char
  | ']' :: ']' :: '>' :: rest => "]]]]><![CDATA[>".data ++ cdataChars rest
  | c :: rest => c :: cdataChars rest
  | [] => []

/-- The function `emitCDATA`: nothing for an empty text, else the text between `<![CDATA[`
and `]]>`, not escaped. -/
def emitCDATA (s : String) : String :=
  if s.data = [] then "" else "<![CDATA[" ++ ⟨cdataChars s.data⟩ ++ "]]>"

/-- The indent `"    "` written `depth` times. -/
def indentText : Nat → String
  | 0 => ""
  | d + 1 => "    " ++ indentText d

/-- A list of texts written one after the other. -/
def concatText : List String → String
  | [] => ""
  | t :: rest => t ++ concatText rest

/-- What `writeStart` writes after the indentation: the start tag with its attributes,
every value escaped. -/
def startTagText (name : String) (attrs : List (String × String)) : String :=
  "<" ++ name ++
    concatText (attrs.map (fun a => " " ++ a.1 ++ "=\"" ++ escapeString a.2 ++ "\"")) ++ ">"

/-- What `writeEnd` writes after the indentation. -/
def endTagText (name : String) : String := "</" ++ name ++ ">"

/-- The state of the printer: the text written, and the fields `depth`, `indentedIn` and
`putNewline`. -/
structure printer where
  out : String
  depth : Nat
  indentedIn : Bool
  putNewline : Bool
deriving DecidableEq

/-- The method `writeIndent`, the prefix being empty and the indent four spaces. -/
def printer.writeIndent (p : printer) (depthDelta : Int) : printer :=
  let p1 : printer := if depthDelta < 0 then { p with depth := p.depth - 1 } else p
  if depthDelta < 0 ∧ p1.indentedIn = true then { p1 with indentedIn := false }
  else
    let p2 : printer := if depthDelta < 0 then { p1 with indentedIn := false } else p1
    let p3 : printer :=
      if p2.putNewline = true then { p2 with out := p2.out ++ "\n" }
      else { p2 with putNewline := true }
    let p4 : printer := { p3 with out := p3.out ++ indentText p3.depth }
    if depthDelta > 0 then { p4 with depth := p4.depth + 1, indentedIn := true } else p4

/-- The method `writeStart`. -/
def printer.writeStart (p : printer) (name : String) (attrs : List (String × String)) :
    printer :=
  { p.writeIndent 1 with out := (p.writeIndent 1).out ++ startTagText name attrs }

/-- The method `writeEnd`. -/
def printer.writeEnd (p : printer) (name : String) : printer :=
  { p.writeIndent (-1) with out := (p.writeIndent (-1)).out ++ endTagText name }

/-- The function `marshalSimple` on the value of an attribute: the text of a string, of an
`int` (`strconv.FormatInt`) and of a `float64` (`formatFloat`, for `strconv.FormatFloat`). -/
def xmlValue.text (formatFloat : Nat → String) : xmlValue → String
  | xmlValue.string s => s
  | xmlValue.int n => toString n
  | xmlValue.float64 bits => formatFloat bits

mutual
/-- The method `marshalValue` on a node of the document: start tag, content, end tag for an
element; `emitCDATA` for character data. -/
def xmlNode.marshal (formatFloat : Nat → String) : xmlNode → printer → printer
  | xmlNode.element name attrs children, p =>
    (xmlNode.marshalAll formatFloat children
      (p.writeStart name (attrs.map (fun a => (a.name, a.value.text formatFloat))))).writeEnd
      name
  | xmlNode.cdata text, p => { p with out := p.out ++ emitCDATA text }
/-- The nodes of a list, marshalled one after the other. -/
def xmlNode.marshalAll (formatFloat : Nat → String) : List xmlNode → printer → printer
  | [], p => p
  | node :: rest, p =>
    xmlNode.marshalAll formatFloat rest (xmlNode.marshal formatFloat node p)
end

/-- The encoder `xml.NewEncoder(w)` after `Indent("", "    ")`: what `Encode` writes. -/
def goEncoder (formatFloat : Nat → String) : Encoder where
  encode := fun node => (xmlNode.marshal formatFloat node ⟨"", 0, false, false⟩).out

/-! ## `main` (lines 175-186) -/

/-- How the program ends: `log.Fatal` on the error of `runTests`, `report` not called;
`log.Fatal` on the error of `report`; or `os.Exit(exit)` with the report on standard
output. -/
inductive mainResult where
  | fatalBeforeReport (e : runError)
  | fatalInReport
  | exited (stdout : String) (code : Int)
deriving DecidableEq

/-- The function `main`. -/
def main (d : Decoder) (enc : Encoder) (w : World) : mainResult :=
  match (runTests d w).2.2 with
  | some e => mainResult.fatalBeforeReport e
  | none =>
    match report enc w.headerOk w.encodeOk (runTests d w).1 with
    | none => mainResult.fatalInReport
    | some out => mainResult.exited out (runTests d w).2.1

/-! ## Runs of `report` under any layout of its maps

The Go runtime does not fix the order in which the entries of a map are kept; the order
only shows in a `range` over the map. To speak of two runs, a run is a relation: after
every assignment to a map the runtime may hold any map with the same entries. `report`
reads no clock, so a run has no other source of variation. -/

/-- Two values of a Go map with the same entries, whatever their layout. -/
def GoMap.sameEntries {V : Type} (m m' : GoMap V) : Prop := ∀ k, m.get k = m'.get k

/-- A run of the first loop from a state over the events still to come. -/
inductive report.groupRun :
    List String × GoMap (List testEvent) → List testEvent →
      List String × GoMap (List testEvent) → Prop where
  | done (st : List String × GoMap (List testEvent)) : report.groupRun st [] st
  | step (st : List String × GoMap (List testEvent)) (ev : testEvent)
      (rest : List testEvent) (m' : GoMap (List testEvent))
      (out : List String × GoMap (List testEvent))
      (h : GoMap.sameEntries (report.groupStep st ev).2 m')
      (hrest : report.groupRun ((report.groupStep st ev).1, m') rest out) :
      report.groupRun st (ev :: rest) out

/-- A run of the loop over the events of one package. -/
inductive report.caseRun (pkg : String) : suiteState → List testEvent → suiteState → Prop where
  | done (st : suiteState) : report.caseRun pkg st [] st
  | step (st : suiteState) (ev : testEvent) (rest : List testEvent) (fm' : GoMap Nat)
      (out : suiteState)
      (h : GoMap.sameEntries (report.caseStep pkg st ev).failures fm')
      (hrest : report.caseRun pkg { report.caseStep pkg st ev with failures := fm' } rest out) :
      report.caseRun pkg st (ev :: rest) out

/-- The suite once the first pass has ended in `st`: the second pass, which only reads
`failures`, and the pointers followed. -/
def report.suiteOf (events : List testEvent) (pkg : String) (st : suiteState) : testSuite :=
  ⟨pkg, st.Tests, 0, st.Failures, st.Skip,
    st.TestCases.map (testCasePtr.deref
      (if st.failures.len = 0 then st.store
        else events.foldl (report.outputStep st.failures) st.store))⟩

/-- A run of the body of the loop over `pkgOrder` for one package. -/
def report.suiteRun (events : List testEvent) (pkg : String) (pkgEvents : List testEvent)
    (s : testSuite) : Prop :=
  ∃ st, report.caseRun pkg suiteState.init pkgEvents st ∧ s = report.suiteOf events pkg st

/-- A run of `report` up to the encoder: the slice `testSuites` it ends with. -/
def report.Run (events : List testEvent) (suites : List testSuite) : Prop :=
  ∃ order pkgs, report.groupRun ([], []) events (order, pkgs) ∧
    List.Forall₂ (fun pkg s => report.suiteRun events pkg ((pkgs.get pkg).getD []) s)
      order suites

/-- Two states of the first pass that differ at most in the layout of `failures`. -/
def suiteState.agree (st st' : suiteState) : Prop :=
  st.Tests = st'.Tests ∧ st.Failures = st'.Failures ∧ st.Skip = st'.Skip ∧
    st.TestCases = st'.TestCases ∧ st.store = st'.store ∧
    GoMap.sameEntries st.failures st'.failures

/-! ## Specification-side vocabulary -/

/-- The event yields a test case: its test field is non-empty and its action is one of
`pass`, `fail`, `skip`. -/
def isCase (ev : testEvent) : Bool :=
  ev.Test ≠ "" && (ev.Action = "pass" || ev.Action = "fail" || ev.Action = "skip")

/-- The event is a `fail` event of a named test. -/
def isFail (ev : testEvent) : Bool := ev.Test ≠ "" && ev.Action = "fail"

/-- The event is a `fail` event of the test named `T`. -/
def isFailOf (T : String) (ev : testEvent) : Bool := isFail ev && ev.Test = T

/-- The text is one of the two kinds of framing line of the runner. -/
def isNoise (out : String) : Bool := hasPrefix out "=== RUN" || contains out "--- FAIL"

/-- The output texts of a list of events, concatenated in order. -/
def concatOutputs : List testEvent → String
  | [] => ""
  | ev :: rest => ev.Output ++ concatOutputs rest

/-- The `output` events of the test named `T` whose text is not a framing line. -/
def isOutputOf (T : String) (ev : testEvent) : Bool :=
  ev.Action = "output" && ev.Test = T && !isNoise ev.Output

/-- The body the claims expect for a failing test named `T`: the text of every `output`
event of `T` in the whole sequence, framing lines left out, in input order. -/
def expectedBody (events : List testEvent) (T : String) : String :=
  concatOutputs (events.filter (isOutputOf T))

/-- A list with every later duplicate removed. -/
def firstOccurrences : List String → List String
  | [] => []
  | p :: rest => p :: (firstOccurrences rest).filter (fun q => q ≠ p)

/-- The suite of package `P` seen from outside: the suites named `P`. -/
def suitesNamed (suites : List testSuite) (P : String) : List testSuite :=
  suites.filter (fun s => s.Name = P)

/-- The test cases `report` is expected to hand to the encoder for the events `l` of one
package: one per event that yields a case; a `fail` event carries a failure whose body is
the expected body when no later `fail` event of `l` has the same test name, and is empty
otherwise. -/
def expectedCases (events : List testEvent) (pkg : String) : List testEvent → List testCase
  | [] => []
  | ev :: rest =>
    if isCase ev then
      ⟨pkg, ev.Test, ev.Elapsed,
        if ev.Action = "fail" then
          some ⟨"go.error", "error",
            if rest.any (isFailOf ev.Test) then "" else expectedBody events ev.Test⟩
        else none⟩ :: expectedCases events pkg rest
    else expectedCases events pkg rest

/-- The test cases of the first pass, the next free address being `n`. -/
def ptrCases (pkg : String) : Nat → List testEvent → List testCasePtr
  | _, [] => []
  | n, ev :: rest =>
    if isCase ev then
      if ev.Action = "fail" then ⟨pkg, ev.Test, ev.Elapsed, some n⟩ :: ptrCases pkg (n + 1) rest
      else ⟨pkg, ev.Test, ev.Elapsed, none⟩ :: ptrCases pkg n rest
    else ptrCases pkg n rest

/-- The address the first pass registers for the test named `T`, the next free address
being `n`: that of the last `fail` event of `T`. -/
def lastAddr (T : String) : Nat → List testEvent → Option Nat
  | _, [] => none
  | n, ev :: rest =>
    if isFail ev then
      match lastAddr T (n + 1) rest with
      | some a => some a
      | none => if ev.Test = T then some n else none
    else lastAddr T n rest

/-- The event is appended by the second pass to the failure at address `a`, under the
lookup `M`. -/
def feeds (M : String → Option Nat) (a : Nat) (ev : testEvent) : Bool :=
  ev.Action = "output" && M ev.Test = some a && !isNoise ev.Output

/-- The failure registered for the test named `T` among the test cases of a suite: that
of the last test case named `T` that carries one. -/
def registeredFailure (T : String) : List testCase → Option testFailure
  | [] => none
  | tc :: rest =>
    match registeredFailure T rest with
    | some f => some f
    | none => if tc.Name = T then tc.Failure else none

/-- The event is not an `output` event of a test other than `T`. -/
def notForeignOutput (T : String) (ev : testEvent) : Bool :=
  !(decide (ev.Action = "output") && decide (ev.Test ≠ T))

/-- The pieces of a list between the occurrences of a separator. -/
def splitSep {α : Type} [DecidableEq α] (sep : α) : List α → List (List α)
  | [] => [[]]
  | c :: rest =>
    if c = sep then [] :: splitSep sep rest
    else
      match splitSep sep rest with
      | [] => [[c]]
      | hd :: tl => (c :: hd) :: tl

/-- The lines of a text: the pieces between its newlines. -/
def splitLines (l : List Char) : List (List Char) := splitSep '\n' l

/-- The lines of a failure body. -/
def bodyLines (body : String) : List String := (splitLines body.data).map String.mk

/-- The text is one whole line: it ends in a newline and holds no other. -/
def oneLine (out : String) : Bool :=
  out.data.getLast? = some '\n' && !out.data.dropLast.contains '\n'

/-- The lines of a buffer as written: the pieces between its newlines, a last piece with
no byte in it left out. -/
def rawLines (buf : List Nat) : List (List Nat) :=
  if (splitSep 10 buf).getLast? = some [] then (splitSep 10 buf).dropLast
  else splitSep 10 buf

/-- The lines of a buffer, the carriage return before a newline removed. -/
def bufferLines (buf : List Nat) : List (List Nat) := (rawLines buf).map dropCR

/-! ## The text of the written document -/

/-- The text of a failure element: on a line of its own at depth 3, the start tag with the
attributes `type` and `message`, the body as character data, the end tag. -/
def failureText (f : testFailure) : String :=
  "\n" ++ indentText 3 ++ startTagText "failure" [("type", f.Typ), ("message", f.Message)] ++
    emitCDATA f.Output ++ endTagText "failure"

/-- The text of a test-case element: on a line of its own at depth 2, the start tag with
the attributes `classname`, `name` and `time`; then the end tag at once when there is no
failure, else the failure element and the end tag on a line of its own. -/
def caseText (formatFloat : Nat → String) (tc : testCase) : String :=
  "\n" ++ indentText 2 ++
    startTagText "testcase"
      [("classname", tc.Classname), ("name", tc.Name), ("time", formatFloat tc.Time)] ++
    (match tc.Failure with
      | none => ""
      | some f => failureText f ++ ("\n" ++ indentText 2)) ++
    endTagText "testcase"

/-- The text of a suite element: on a line of its own at depth 1, the start tag with the
attributes `name`, `tests`, `errors`, `failures` and `skip`, one test-case element per test
case in order, and the end tag, on a line of its own unless there is no test case. -/
def suiteText (formatFloat : Nat → String) (s : testSuite) : String :=
  "\n" ++ indentText 1 ++
    startTagText "testsuite"
      [("name", s.Name), ("tests", toString s.Tests), ("errors", toString s.Errors),
        ("failures", toString s.Failures), ("skip", toString s.Skip)] ++
    concatText (s.TestCases.map (caseText formatFloat)) ++
    (if s.TestCases = [] then "" else "\n" ++ indentText 1) ++
    endTagText "testsuite"

/-- The text of the root element: the start tag `testsuites`, one suite element per suite
in order, and the end tag, on a line of its own unless there is no suite. -/
def documentText (formatFloat : Nat → String) (suites : List testSuite) : String :=
  startTagText "testsuites" [] ++
    concatText (suites.map (suiteText formatFloat)) ++
    (if suites = [] then "" else "\n") ++
    endTagText "testsuites"

/-! ## Sample inputs -/

/-- A sample run: two packages, a rerun test, a package-level event and output. -/
def sampleEvents : List testEvent :=
  [⟨"TestA", 3, "run", "p", ""⟩,
   ⟨"TestA", 3, "output", "p", "=== RUN   TestA\n"⟩,
   ⟨"TestA", 5, "fail", "p", ""⟩,
   ⟨"TestB", 7, "pass", "q", ""⟩,
   ⟨"TestA", 0, "output", "p", "boom\n"⟩,
   ⟨"TestA", 9, "fail", "p", ""⟩,
   ⟨"TestC", 2, "skip", "p", ""⟩,
   ⟨"", 11, "fail", "p", ""⟩]

/-- The sample run with the output of other tests changed: one `output` event of
`TestB` added, one of `TestC` added under another package. -/
def sampleEventsAltered : List testEvent :=
  [⟨"TestB", 1, "output", "q", "noise of B\n"⟩,
   ⟨"TestA", 3, "run", "p", ""⟩,
   ⟨"TestA", 3, "output", "p", "=== RUN   TestA\n"⟩,
   ⟨"TestA", 5, "fail", "p", ""⟩,
   ⟨"TestB", 7, "pass", "q", ""⟩,
   ⟨"TestA", 0, "output", "p", "boom\n"⟩,
   ⟨"TestC", 0, "output", "r", "skipped here\n"⟩,
   ⟨"TestA", 9, "fail", "p", ""⟩,
   ⟨"TestC", 2, "skip", "p", ""⟩,
   ⟨"", 11, "fail", "p", ""⟩]

/-- A failing test with one `output` event that holds two lines. -/
def twoLineEvents : List testEvent :=
  [⟨"TestA", 5, "fail", "p", ""⟩,
   ⟨"TestA", 0, "output", "p", "setup\n=== RUN   helper\n"⟩]

/-- A decoder that accepts the line `{}` alone; `json.Unmarshal` decodes this line to the
zero `testEvent`. -/
def braceDecoder : Decoder where
  unmarshal := fun line => if line = [123, 125] then some ⟨"", 0, "", "", ""⟩ else none
  empty_input := rfl

/-- The buffer `{}\n\n{}\n`: an empty line between two lines that decode. -/
def emptyLineBuffer : List Nat := [123, 125, 10, 10, 123, 125, 10]

/-- The buffer `{}\r\n{}`: two lines that decode, the last one without newline. -/
def twoLineBuffer : List Nat := [123, 125, 13, 10, 123, 125]

/-- The buffer `{}\nx\n{}\n`: a line that does not decode after one that does. -/
def badLineBuffer : List Nat := [123, 125, 10, 120, 10, 123, 125, 10]

/-- A serialiser that writes nothing for any document; it stands in where the bytes of the
document play no part. -/
def blankEncoder : Encoder where
  encode := fun _ => ""

/-- An invocation whose child exits with code 1 after writing `badLineBuffer`. -/
def badLineWorld : World :=
  ⟨"go-test-xunit", ["./..."], true, fun _ => (runResult.exitError 1, badLineBuffer),
    true, true, true⟩

/-- An invocation whose child exits with code 1 after writing `twoLineBuffer`. -/
def failedTestsWorld : World :=
  ⟨"go-test-xunit", ["-json", "./..."], true,
    fun _ => (runResult.exitError 1, twoLineBuffer), true, true, true⟩

/-- An invocation whose child cannot be started. -/
def launchFailureWorld : World :=
  ⟨"go-test-xunit", ["./..."], true, fun _ => (runResult.otherError, []), true, true, true⟩

/-- A run in which `TestX` fails in two packages, with output under both, and fails
twice in the first. -/
def twoPackageEvents : List testEvent :=
  [⟨"TestX", 1, "fail", "p", ""⟩,
   ⟨"TestX", 0, "output", "p", "from p\n"⟩,
   ⟨"TestX", 2, "fail", "q", ""⟩,
   ⟨"TestX", 0, "output", "q", "from q\n"⟩,
   ⟨"TestX", 3, "fail", "p", ""⟩]

/-- Two events of two packages. -/
def layoutEvents : List testEvent :=
  [⟨"TestB", 7, "pass", "q", ""⟩, ⟨"TestA", 5, "fail", "p", ""⟩]

/-- The map `pkgs` after the two events of `layoutEvents`, its entries in the other order
than the one in which they were assigned. -/
def layoutSwapped : GoMap (List testEvent) :=
  [("p", [⟨"TestA", 5, "fail", "p", ""⟩]), ("q", [⟨"TestB", 7, "pass", "q", ""⟩])]

/-- The suites of `layoutEvents`. -/
def layoutSuites : List testSuite :=
  [⟨"q", 1, 0, 0, 0, [⟨"q", "TestB", 7, none⟩]⟩,
   ⟨"p", 1, 0, 1, 0, [⟨"p", "TestA", 5, some ⟨"go.error", "error", ""⟩⟩]⟩]

/-- The suite of package `p` for `twoPackageEvents`. -/
def twoPackageSuiteP : testSuite :=
  ⟨"p", 2, 0, 2, 0,
    [⟨"p", "TestX", 1, some ⟨"go.error", "error", ""⟩⟩,
     ⟨"p", "TestX", 3, some ⟨"go.error", "error", "from p\nfrom q\n"⟩⟩]⟩

/-- The text `strconv.FormatFloat(x, 'g', -1, 64)` gives for the three values of the
samples below, by bit pattern: 0.01, 0.02 and 0. -/
def formatFloatSample (bits : Nat) : String :=
  if bits = 0x3F847AE147AE147B then "0.01"
  else if bits = 0x3F947AE147AE147B then "0.02"
  else "0"

/-- A test that fails without any output. -/
def silentFailureEvents : List testEvent :=
  [⟨"A", 0x3F947AE147AE147B, "fail", "pkg", ""⟩]

/-- A test that fails after an output that holds `]]>`. -/
def cdataEndEvents : List testEvent :=
  [⟨"A", 0x3F947AE147AE147B, "fail", "pkg", ""⟩,
   ⟨"A", 0, "output", "pkg", "a]]>b"⟩]

/-- A run in which every event passes, one of them a package-level event. -/
def passEvents : List testEvent :=
  [⟨"TestA", 3, "pass", "p", ""⟩,
   ⟨"TestB", 7, "pass", "q", ""⟩,
   ⟨"TestC", 2, "pass", "p", ""⟩,
   ⟨"", 11, "pass", "p", ""⟩]

/-- The three events of the round-trip scenario; 0.01 and 0.02 as bit patterns. -/
def roundTripEvents : List testEvent :=
  [⟨"A", 0x3F847AE147AE147B, "pass", "pkg", ""⟩,
   ⟨"B", 0x3F947AE147AE147B, "fail", "pkg", ""⟩,
   ⟨"B", 0, "output", "pkg", "assertion failed\n"⟩]

/-! ## Lemmas on maps -/

theorem GoMap.get_set {V : Type} (m : GoMap V) (k k' : String) (v : V) :
    (m.set k v).get k' = if k = k' then some v else m.get k' := by
  induction m with
  | nil => simp [GoMap.set, GoMap.get]
  | cons hd tl ih =>
    obtain ⟨a, b⟩ := hd
    by_cases h : a = k
    · subst h
      by_cases h2 : a = k' <;> simp [GoMap.set, GoMap.get, h2]
    · by_cases h2 : k = k'
      · subst h2
        simp [GoMap.set, GoMap.get, h, ih]
      · simp [GoMap.set, GoMap.get, h, h2, ih]

theorem GoMap.get_of_len_zero {V : Type} (m : GoMap V) (h : m.len = 0) (k : String) :
    m.get k = none := by
  cases m with
  | nil => rfl
  | cons hd tl => simp [GoMap.len] at h

/-! ## Lemmas on the grouping loop -/

theorem firstOccurrences_filter (f : String → Bool) (l : List String) :
    firstOccurrences (l.filter f) = (firstOccurrences l).filter f := by
  induction l with
  | nil => rfl
  | cons p rest ih =>
    by_cases hp : f p = true
    · simp only [List.filter_cons, hp, if_true, firstOccurrences, ih, List.filter_filter]
      congr 1
      apply List.filter_congr
      intro x _
      simp [Bool.and_comm]
    · simp only [List.filter_cons, hp, firstOccurrences, List.filter_filter]
      simp only [Bool.false_eq_true, if_false]
      rw [ih]
      apply List.filter_congr
      intro x _
      by_cases hx : x = p
      · subst hx; simp [hp]
      · simp [hx]

theorem firstOccurrences_mem (l : List String) (p : String) :
    p ∈ firstOccurrences l ↔ p ∈ l := by
  induction l with
  | nil => simp [firstOccurrences]
  | cons q rest ih =>
    by_cases h : p = q
    · subst h; simp [firstOccurrences]
    · simp [firstOccurrences, ih, h]

theorem firstOccurrences_nodup (l : List String) : (firstOccurrences l).Nodup := by
  induction l with
  | nil => simp [firstOccurrences]
  | cons q rest ih =>
    simp only [firstOccurrences, List.nodup_cons]
    exact ⟨by simp [List.mem_filter], ih.filter _⟩

theorem report.group_order_aux (events : List testEvent)
    (st : List String × GoMap (List testEvent)) :
    (events.foldl report.groupStep st).1 =
      st.1 ++ firstOccurrences
        ((events.map (fun ev => ev.Package)).filter (fun p => (st.2.get p).isNone)) := by
  induction events generalizing st with
  | nil => simp [firstOccurrences]
  | cons ev rest ih =>
    rw [List.foldl_cons, ih]
    cases hget : st.2.get ev.Package with
    | none =>
      simp only [report.groupStep, hget, Option.isNone_none, if_true, List.map_cons,
        List.filter_cons, firstOccurrences, List.append_assoc, List.singleton_append,
        GoMap.get_set]
      congr 2
      rw [← firstOccurrences_filter, List.filter_filter]
      congr 1
      apply List.filter_congr
      intro x _
      by_cases hx : ev.Package = x
      · subst hx; simp
      · have hx' : ¬ x = ev.Package := fun h => hx h.symm
        simp [hx, hx']
    | some l =>
      simp only [report.groupStep, hget, Option.isNone_some, Bool.false_eq_true, if_false,
        List.map_cons, List.filter_cons, GoMap.get_set]
      congr 2
      apply List.filter_congr
      intro x _
      by_cases hx : ev.Package = x
      · subst hx; simp [hget]
      · simp [hx]

theorem report.group_order (events : List testEvent) :
    (report.group events).1 = firstOccurrences (events.map (fun ev => ev.Package)) := by
  rw [report.group, report.group_order_aux]
  simp [GoMap.get]

theorem report.group_get_aux (events : List testEvent)
    (st : List String × GoMap (List testEvent)) (P : String) :
    ((events.foldl report.groupStep st).2.get P).getD [] =
      (st.2.get P).getD [] ++ events.filter (fun ev => ev.Package = P) := by
  induction events generalizing st with
  | nil => simp
  | cons ev rest ih =>
    rw [List.foldl_cons, ih]
    by_cases h : ev.Package = P
    · simp [report.groupStep, GoMap.get_set, h, List.filter_cons]
    · simp [report.groupStep, GoMap.get_set, h, List.filter_cons]

theorem report.group_get (events : List testEvent) (P : String) :
    ((report.group events).2.get P).getD [] = events.filter (fun ev => ev.Package = P) := by
  rw [report.group, report.group_get_aux]
  simp [GoMap.get]

theorem report.testSuites_eq (events : List testEvent) :
    report.testSuites events =
      (firstOccurrences (events.map (fun ev => ev.Package))).map
        (fun pkg => report.suite events pkg (events.filter (fun ev => ev.Package = pkg))) := by
  simp only [report.testSuites, report.group_order, report.group_get]

theorem report.suite_Name (events : List testEvent) (pkg : String) (l : List testEvent) :
    (report.suite events pkg l).Name = pkg := rfl

theorem report.testSuites_names (events : List testEvent) :
    (report.testSuites events).map (fun s => s.Name) =
      firstOccurrences (events.map (fun ev => ev.Package)) := by
  rw [report.testSuites_eq, List.map_map]
  conv_rhs => rw [← List.map_id (firstOccurrences _)]
  apply List.map_congr_left
  intro p _
  rfl

/-! ## Lemmas on the first pass over a package -/

theorem isFail_isCase (ev : testEvent) (h : isFail ev = true) : isCase ev = true := by
  simp only [isFail, Bool.and_eq_true, decide_eq_true_eq] at h
  simp [isCase, h.1, h.2]

theorem report.caseStep_of_not_isCase (pkg : String) (st : suiteState) (ev : testEvent)
    (h : isCase ev = false) : report.caseStep pkg st ev = st := by
  unfold report.caseStep
  by_cases h1 : ev.Test = ""
  · simp [h1]
  · simp only [isCase, h1, ne_eq, not_false_eq_true, decide_True, Bool.true_and,
      Bool.or_eq_false_iff, decide_eq_false_iff_not] at h
    simp [h1, h.1.1, h.1.2, h.2]

theorem report.caseStep_of_isFail (pkg : String) (st : suiteState) (ev : testEvent)
    (h : isFail ev = true) :
    report.caseStep pkg st ev =
      { st with
        Tests := st.Tests + 1
        Failures := st.Failures + 1
        store := st.store ++ [⟨"go.error", "error", ""⟩]
        TestCases := st.TestCases ++ [⟨pkg, ev.Test, ev.Elapsed, some st.store.length⟩]
        failures := st.failures.set ev.Test st.store.length } := by
  simp only [isFail, Bool.and_eq_true, decide_eq_true_eq] at h
  unfold report.caseStep
  simp [h.1, h.2]

theorem report.caseStep_of_isCase_not_fail (pkg : String) (st : suiteState) (ev : testEvent)
    (h : isCase ev = true) (hf : ev.Action ≠ "fail") :
    (report.caseStep pkg st ev).store = st.store ∧
    (report.caseStep pkg st ev).failures = st.failures ∧
    (report.caseStep pkg st ev).TestCases =
      st.TestCases ++ [⟨pkg, ev.Test, ev.Elapsed, none⟩] := by
  simp only [isCase, Bool.and_eq_true, decide_eq_true_eq, Bool.or_eq_true] at h
  obtain ⟨h1, h2⟩ := h
  unfold report.caseStep
  by_cases hp : ev.Action = "pass"
  · simp [h1, hp]
  · have hs : ev.Action = "skip" := by
      rcases h2 with (h2 | h2) | h2
      · exact absurd h2 hp
      · exact absurd h2 hf
      · exact h2
    simp [h1, hs]

theorem isFail_eq (ev : testEvent) : isFail ev = (isCase ev && decide (ev.Action = "fail")) := by
  by_cases h1 : ev.Test = "" <;> by_cases h2 : ev.Action = "fail" <;> simp [isFail, isCase, h1, h2]

theorem report.first_pass_store (pkg : String) (l : List testEvent) (st : suiteState) :
    (l.foldl (report.caseStep pkg) st).store =
      st.store ++ List.replicate (l.filter isFail).length ⟨"go.error", "error", ""⟩ := by
  induction l generalizing st with
  | nil => simp
  | cons ev rest ih =>
    rw [List.foldl_cons, ih]
    by_cases hf : isFail ev = true
    · rw [report.caseStep_of_isFail pkg st ev hf]
      simp [List.filter_cons, hf, List.replicate_succ]
    · by_cases hc : isCase ev = true
      · have hne : ev.Action ≠ "fail" := by
          intro h; apply hf; rw [isFail_eq]; simp [hc, h]
        rw [(report.caseStep_of_isCase_not_fail pkg st ev hc hne).1]
        simp [List.filter_cons, hf]
      · rw [report.caseStep_of_not_isCase pkg st ev (by simpa using hc)]
        simp [List.filter_cons, hf]

theorem report.first_pass_cases (pkg : String) (l : List testEvent) (st : suiteState) :
    (l.foldl (report.caseStep pkg) st).TestCases =
      st.TestCases ++ ptrCases pkg st.store.length l := by
  induction l generalizing st with
  | nil => simp [ptrCases]
  | cons ev rest ih =>
    rw [List.foldl_cons, ih]
    by_cases hf : isFail ev = true
    · have hc := isFail_isCase ev hf
      have ha : ev.Action = "fail" := by
        simp only [isFail, Bool.and_eq_true, decide_eq_true_eq] at hf; exact hf.2
      rw [report.caseStep_of_isFail pkg st ev hf]
      simp [ptrCases, hc, ha]
    · by_cases hc : isCase ev = true
      · have hne : ev.Action ≠ "fail" := by
          intro h; apply hf; rw [isFail_eq]; simp [hc, h]
        obtain ⟨h1, _, h3⟩ := report.caseStep_of_isCase_not_fail pkg st ev hc hne
        rw [h1, h3]
        simp [ptrCases, hc, hne]
      · rw [report.caseStep_of_not_isCase pkg st ev (by simpa using hc)]
        simp [ptrCases, hc]

theorem report.first_pass_failures (pkg : String) (T : String) (l : List testEvent)
    (st : suiteState) :
    (l.foldl (report.caseStep pkg) st).failures.get T =
      match lastAddr T st.store.length l with
      | some a => some a
      | none => st.failures.get T := by
  induction l generalizing st with
  | nil => simp [lastAddr]
  | cons ev rest ih =>
    rw [List.foldl_cons, ih]
    by_cases hf : isFail ev = true
    · rw [report.caseStep_of_isFail pkg st ev hf]
      simp only [lastAddr, hf, if_true, List.length_append, List.length_singleton,
        GoMap.get_set]
      cases lastAddr T (st.store.length + 1) rest with
      | some a => rfl
      | none =>
        by_cases hT : ev.Test = T
        · simp [hT]
        · simp [hT]
    · by_cases hc : isCase ev = true
      · have hne : ev.Action ≠ "fail" := by
          intro h; apply hf; rw [isFail_eq]; simp [hc, h]
        obtain ⟨h1, h2, _⟩ := report.caseStep_of_isCase_not_fail pkg st ev hc hne
        rw [h1, h2]
        simp [lastAddr, hf]
      · rw [report.caseStep_of_not_isCase pkg st ev (by simpa using hc)]
        simp [lastAddr, hf]

theorem report.first_pass_counts (pkg : String) (l : List testEvent) (st : suiteState) :
    (l.foldl (report.caseStep pkg) st).Tests = st.Tests + (l.filter isCase).length ∧
    (l.foldl (report.caseStep pkg) st).Failures = st.Failures + (l.filter isFail).length ∧
    (l.foldl (report.caseStep pkg) st).Skip =
      st.Skip + (l.filter (fun ev => isCase ev && decide (ev.Action = "skip"))).length := by
  induction l generalizing st with
  | nil => simp
  | cons ev rest ih =>
    rw [List.foldl_cons]
    obtain ⟨i1, i2, i3⟩ := ih (report.caseStep pkg st ev)
    rw [i1, i2, i3]
    by_cases h1 : ev.Test = ""
    · simp [report.caseStep, isCase, isFail, h1, List.filter_cons]
    · by_cases hp : ev.Action = "pass"
      · simp [report.caseStep, isCase, isFail, h1, hp, List.filter_cons]
        omega
      · by_cases hf : ev.Action = "fail"
        · simp [report.caseStep, isCase, isFail, h1, hf, List.filter_cons]
          omega
        · by_cases hs : ev.Action = "skip"
          · simp [report.caseStep, isCase, isFail, h1, hs, List.filter_cons]
            omega
          · simp [report.caseStep, isCase, isFail, h1, hp, hf, hs, List.filter_cons]

/-! ## Lemmas on the second pass -/

theorem report.second_pass_get (fm : GoMap Nat) (events : List testEvent)
    (store : List testFailure) (a : Nat) :
    (events.foldl (report.outputStep fm) store)[a]? =
      store[a]?.map (fun f =>
        { f with Output := f.Output ++ concatOutputs (events.filter (feeds fm.get a)) }) := by
  induction events generalizing store with
  | nil =>
    cases h : store[a]? with
    | none => simp [h]
    | some f => simp [h, concatOutputs]
  | cons ev rest ih =>
    rw [List.foldl_cons, ih]
    by_cases ho : ev.Action = "output"
    · cases hg : fm.get ev.Test with
      | none =>
        simp [report.outputStep, ho, hg, feeds, List.filter_cons]
      | some b =>
        by_cases hn : isNoise ev.Output = true
        · have hn' : (!hasPrefix ev.Output "=== RUN" && !contains ev.Output "--- FAIL") = false := by
            simp only [isNoise, Bool.or_eq_true] at hn
            rcases hn with hn | hn <;> simp [hn]
          simp [report.outputStep, ho, hg, feeds, List.filter_cons, hn, hn']
        · have hn' : (!hasPrefix ev.Output "=== RUN" && !contains ev.Output "--- FAIL") = true := by
            simp only [isNoise, Bool.or_eq_true, not_or, Bool.not_eq_true] at hn
            simp [hn.1, hn.2]
          simp only [report.outputStep, ho, hg, hn', ne_eq, not_true_eq_false, if_false, if_true,
            List.getElem?_modify]
          by_cases hba : b = a
          · subst hba
            cases hs : store[b]? with
            | none => simp
            | some f =>
              simp [feeds, ho, hg, hn, List.filter_cons, concatOutputs, String.append_assoc]
          · cases hs : store[a]? with
            | none => simp
            | some f =>
              simp [feeds, ho, hg, hn, hba, List.filter_cons]
    · simp [report.outputStep, ho, feeds, List.filter_cons]

/-! ## Lemmas relating the two passes -/

theorem lastAddr_bounds (T : String) (l : List testEvent) (n a : Nat)
    (h : lastAddr T n l = some a) : n ≤ a ∧ a < n + (l.filter isFail).length := by
  induction l generalizing n with
  | nil => simp [lastAddr] at h
  | cons ev rest ih =>
    by_cases hf : isFail ev = true
    · simp only [lastAddr, hf, if_true] at h
      cases hr : lastAddr T (n + 1) rest with
      | some b =>
        rw [hr] at h
        simp only [Option.some.injEq] at h
        subst h
        have := ih (n + 1) hr
        simp only [List.filter_cons, hf, if_true, List.length_cons]
        omega
      | none =>
        rw [hr] at h
        by_cases hT : ev.Test = T
        · simp only [hT, if_true, Option.some.injEq] at h
          subst h
          simp only [List.filter_cons, hf, if_true, List.length_cons]
          omega
        · simp [hT] at h
    · simp only [lastAddr, hf, Bool.false_eq_true, if_false] at h
      have := ih n h
      simp only [List.filter_cons, hf, Bool.false_eq_true, if_false]
      exact this

theorem lastAddr_eq_none_iff (T : String) (l : List testEvent) (n : Nat) :
    lastAddr T n l = none ↔ l.any (isFailOf T) = false := by
  induction l generalizing n with
  | nil => simp [lastAddr]
  | cons ev rest ih =>
    by_cases hf : isFail ev = true
    · simp only [lastAddr, hf, if_true, List.any_cons, isFailOf, Bool.true_and,
        Bool.or_eq_false_iff, decide_eq_false_iff_not]
      cases hr : lastAddr T (n + 1) rest with
      | some b =>
        have : ¬ (rest.any (isFailOf T) = false) := fun h => by
          rw [← ih (n + 1)] at h; rw [hr] at h; cases h
        simp only [isFailOf] at this
        simp [this]
      | none =>
        have : rest.any (isFailOf T) = false := (ih (n + 1)).1 hr
        simp only [isFailOf] at this
        by_cases hT : ev.Test = T <;> simp [hT, this]
    · have hf' : isFail ev = false := by simpa using hf
      simp only [lastAddr, hf', Bool.false_eq_true, if_false, List.any_cons, isFailOf,
        Bool.false_and, Bool.false_or]
      exact ih n

theorem concatOutputs_filter_false (events : List testEvent) (f : testEvent → Bool)
    (h : ∀ ev ∈ events, f ev = false) : concatOutputs (events.filter f) = "" := by
  have : events.filter f = [] := by
    rw [List.filter_eq_nil_iff]
    intro ev hev
    simp [h ev hev]
  rw [this]; rfl

theorem resolve_cases (events : List testEvent) (pkg : String) (M : String → Option Nat)
    (S : List testFailure) (l : List testEvent) :
    ∀ (n : Nat) (prior : String → Option Nat),
      (∀ T a, prior T = some a → a < n) →
      (∀ T, M T = match lastAddr T n l with
        | some a => some a
        | none => prior T) →
      (∀ k, n ≤ k → k < n + (l.filter isFail).length →
        S[k]? = some ⟨"go.error", "error", concatOutputs (events.filter (feeds M k))⟩) →
      (ptrCases pkg n l).map (testCasePtr.deref S) = expectedCases events pkg l := by
  induction l with
  | nil => intro n prior _ _ _; simp [ptrCases, expectedCases]
  | cons ev rest ih =>
    intro n prior hprior hM hS
    by_cases hf : isFail ev = true
    · have hc := isFail_isCase ev hf
      have ha : ev.Action = "fail" := by
        simp only [isFail, Bool.and_eq_true, decide_eq_true_eq] at hf; exact hf.2
      have hMn : ∀ T, M T = some n ↔ (lastAddr T (n + 1) rest = none ∧ ev.Test = T) := by
        intro T
        rw [hM T]
        simp only [lastAddr, hf, if_true]
        cases hr : lastAddr T (n + 1) rest with
        | some b =>
          have := (lastAddr_bounds T rest (n + 1) b hr).1
          simp only [Option.some.injEq, false_and, iff_false, reduceCtorEq]
          omega
        | none =>
          by_cases hT : ev.Test = T
          · simp [hT]
          · simp only [hT, if_false, false_iff, and_false, iff_false]
            intro hp
            have := hprior T n hp
            omega
      have hhead : S[n]? = some ⟨"go.error", "error",
          if rest.any (isFailOf ev.Test) then "" else expectedBody events ev.Test⟩ := by
        rw [hS n (Nat.le_refl n) (by simp [List.filter_cons, hf])]
        congr 2
        by_cases hany : rest.any (isFailOf ev.Test) = true
        · rw [if_pos hany]
          apply concatOutputs_filter_false
          intro e _
          by_cases hMe : M e.Test = some n
          · obtain ⟨h1, h2⟩ := (hMn e.Test).1 hMe
            rw [← h2, lastAddr_eq_none_iff] at h1
            rw [h1] at hany
            cases hany
          · simp [feeds, hMe]
        · rw [if_neg hany]
          have hnone : lastAddr ev.Test (n + 1) rest = none :=
            (lastAddr_eq_none_iff ev.Test rest (n + 1)).2 (by simpa using hany)
          unfold expectedBody
          congr 1
          apply List.filter_congr
          intro e _
          by_cases hTe : e.Test = ev.Test
          · have : M ev.Test = some n := (hMn ev.Test).2 ⟨hnone, rfl⟩
            simp [feeds, isOutputOf, this, hTe]
          · have : ¬ M e.Test = some n := fun h => hTe ((hMn e.Test).1 h).2.symm
            simp [feeds, isOutputOf, this, hTe]
      have htail := ih (n + 1) (fun T => if ev.Test = T then some n else prior T)
        (by
          intro T a h
          by_cases hT : ev.Test = T
          · simp only [hT, if_true, Option.some.injEq] at h; omega
          · simp only [hT, if_false] at h
            have := hprior T a h; omega)
        (by
          intro T
          rw [hM T]
          simp only [lastAddr, hf, if_true]
          cases lastAddr T (n + 1) rest with
          | some b => rfl
          | none => by_cases hT : ev.Test = T <;> simp [hT])
        (by
          intro k hk1 hk2
          apply hS k (by omega)
          simp only [List.filter_cons, hf, if_true, List.length_cons]
          omega)
      simp only [ptrCases, hc, ha, if_true, List.map_cons, expectedCases, htail]
      congr 1
      simp [testCasePtr.deref, hhead]
    · have hf' : isFail ev = false := by simpa using hf
      have htail := ih n prior hprior
        (by intro T; rw [hM T]; simp [lastAddr, hf'])
        (by
          intro k hk1 hk2
          apply hS k hk1
          simpa [List.filter_cons, hf'] using hk2)
      by_cases hc : isCase ev = true
      · have hne : ev.Action ≠ "fail" := by
          intro h; apply hf; rw [isFail_eq]; simp [hc, h]
        simp only [ptrCases, hc, hne, if_true, if_false, List.map_cons, expectedCases, htail]
        congr 1
      · simp only [ptrCases, hc, Bool.false_eq_true, if_false, expectedCases, htail]

/-- The test cases of a suite, in closed form. -/
theorem report.suite_TestCases (events : List testEvent) (pkg : String) (l : List testEvent) :
    (report.suite events pkg l).TestCases = expectedCases events pkg l := by
  have hstore : (l.foldl (report.caseStep pkg) suiteState.init).store =
      List.replicate (l.filter isFail).length ⟨"go.error", "error", ""⟩ := by
    rw [report.first_pass_store]; simp [suiteState.init]
  have hcases : (l.foldl (report.caseStep pkg) suiteState.init).TestCases =
      ptrCases pkg 0 l := by
    rw [report.first_pass_cases]; simp [suiteState.init]
  have hfail : ∀ T, (l.foldl (report.caseStep pkg) suiteState.init).failures.get T =
      match lastAddr T 0 l with
      | some a => some a
      | none => none := by
    intro T
    rw [report.first_pass_failures]; simp [suiteState.init, GoMap.get]
  simp only [report.suite]
  rw [hcases]
  apply resolve_cases events pkg (l.foldl (report.caseStep pkg) suiteState.init).failures.get
    _ l 0 (fun _ => none)
  · intro T a h; cases h
  · intro T
    rw [hfail T]
  · intro k _ hk
    simp only [Nat.zero_add] at hk
    have hk0 : (List.replicate (l.filter isFail).length
        (⟨"go.error", "error", ""⟩ : testFailure))[k]? = some ⟨"go.error", "error", ""⟩ := by
      rw [List.getElem?_replicate]; simp [hk]
    split
    · rename_i hlen
      rw [hstore, hk0]
      congr 2
      symm
      apply concatOutputs_filter_false
      intro e _
      simp [feeds, GoMap.get_of_len_zero _ hlen]
    · rw [report.second_pass_get, hstore, hk0]
      simp

/-! ## The suites in closed form -/

theorem filter_eq_of_nodup (l : List String) (P : String) (hn : l.Nodup) (hP : P ∈ l) :
    l.filter (fun q => q = P) = [P] := by
  induction l with
  | nil => cases hP
  | cons q rest ih =>
    rw [List.nodup_cons] at hn
    by_cases hq : q = P
    · subst hq
      have : rest.filter (fun x => decide (x = q)) = [] := by
        rw [List.filter_eq_nil_iff]
        intro x hx
        have : x ≠ q := fun h => hn.1 (h ▸ hx)
        simp [this]
      simp [List.filter_cons, this]
    · have hP' : P ∈ rest := by
        rcases List.mem_cons.1 hP with h | h
        · exact absurd h.symm hq
        · exact h
      simp [List.filter_cons, hq, ih hn.2 hP']

theorem report.suitesNamed_eq (events : List testEvent) (P : String)
    (hP : ∃ ev ∈ events, ev.Package = P) :
    suitesNamed (report.testSuites events) P =
      [report.suite events P (events.filter (fun ev => ev.Package = P))] := by
  have hmem : P ∈ firstOccurrences (events.map (fun ev => ev.Package)) := by
    rw [firstOccurrences_mem]
    obtain ⟨ev, h1, h2⟩ := hP
    exact List.mem_map.2 ⟨ev, h1, h2⟩
  rw [suitesNamed, report.testSuites_eq, List.filter_map]
  have : ((fun s : testSuite => decide (s.Name = P)) ∘ fun pkg =>
      report.suite events pkg (events.filter (fun ev => ev.Package = pkg))) =
      fun q => decide (q = P) := by
    funext q; rfl
  rw [this, filter_eq_of_nodup _ P (firstOccurrences_nodup _) hmem]
  rfl

theorem report.mem_testSuites (events : List testEvent) (s : testSuite)
    (hs : s ∈ report.testSuites events) :
    (∃ ev ∈ events, ev.Package = s.Name) ∧
      s = report.suite events s.Name (events.filter (fun ev => ev.Package = s.Name)) := by
  rw [report.testSuites_eq, List.mem_map] at hs
  obtain ⟨pkg, h1, h2⟩ := hs
  rw [firstOccurrences_mem, List.mem_map] at h1
  subst h2
  exact ⟨h1, rfl⟩

theorem expectedCases_core (events : List testEvent) (pkg : String) (l : List testEvent) :
    (expectedCases events pkg l).map
        (fun tc => (tc.Classname, tc.Name, tc.Time,
          tc.Failure.map (fun f => (f.Typ, f.Message)))) =
      (l.filter isCase).map
        (fun ev => (pkg, ev.Test, ev.Elapsed,
          if ev.Action = "fail" then some ("go.error", "error") else none)) := by
  induction l with
  | nil => rfl
  | cons ev rest ih =>
    by_cases hc : isCase ev = true
    · by_cases hf : ev.Action = "fail" <;>
        simp [expectedCases, hc, hf, List.filter_cons, ih]
    · simp [expectedCases, hc, List.filter_cons, ih]

theorem report.suite_counts (events : List testEvent) (pkg : String) (l : List testEvent) :
    (report.suite events pkg l).Tests = (l.filter isCase).length ∧
    (report.suite events pkg l).Failures = (l.filter isFail).length ∧
    (report.suite events pkg l).Skip =
      (l.filter (fun ev => isCase ev && decide (ev.Action = "skip"))).length := by
  obtain ⟨h1, h2, h3⟩ := report.first_pass_counts pkg l suiteState.init
  simp only [report.suite]
  rw [h1, h2, h3]
  simp [suiteState.init]

theorem isFailOf_isCase (T : String) (ev : testEvent) (h : isCase ev = false) :
    isFailOf T ev = false := by
  cases hf : isFail ev with
  | false => simp [isFailOf, hf]
  | true => rw [isFail_isCase ev hf] at h; cases h

theorem registeredFailure_expectedCases (events : List testEvent) (pkg T : String)
    (l : List testEvent) :
    registeredFailure T (expectedCases events pkg l) =
      if l.any (isFailOf T) then some ⟨"go.error", "error", expectedBody events T⟩
      else none := by
  induction l with
  | nil => simp [expectedCases, registeredFailure]
  | cons ev rest ih =>
    by_cases hc : isCase ev = true
    · simp only [expectedCases, hc, if_true, registeredFailure, ih, List.any_cons]
      by_cases hany : rest.any (isFailOf T) = true
      · simp [hany]
      · have hany' : rest.any (isFailOf T) = false := by simpa using hany
        simp only [hany', Bool.false_eq_true, if_false, Bool.or_false]
        by_cases hT : ev.Test = T
        · subst hT
          by_cases ha : ev.Action = "fail"
          · have : isFailOf ev.Test ev = true := by rw [isFailOf, isFail_eq]; simp [hc, ha]
            simp [ha, this, hany']
          · have : isFailOf ev.Test ev = false := by rw [isFailOf, isFail_eq]; simp [ha]
            simp [ha, this]
        · simp [hT, isFailOf]
    · have hc' : isCase ev = false := by simpa using hc
      simp only [expectedCases, hc', Bool.false_eq_true, if_false, ih, List.any_cons,
        isFailOf_isCase T ev hc', Bool.false_or]

theorem registeredFailure_eq_none (T : String) (cases : List testCase)
    (h : registeredFailure T cases = none) :
    ∀ tc ∈ cases, tc.Name = T → tc.Failure = none := by
  induction cases with
  | nil => intro tc htc; cases htc
  | cons hd tl ih =>
    simp only [registeredFailure] at h
    cases hr : registeredFailure T tl with
    | some f => rw [hr] at h; cases h
    | none =>
      rw [hr] at h
      intro tc htc hname
      rcases List.mem_cons.1 htc with rfl | htl
      · simpa [hname] using h
      · exact ih hr tc htl hname

theorem registeredFailure_decompose (T : String) (cases : List testCase) (f : testFailure)
    (h : registeredFailure T cases = some f) :
    ∃ pre tc post, cases = pre ++ tc :: post ∧ tc.Name = T ∧ tc.Failure = some f ∧
      ∀ tc' ∈ post, tc'.Name = T → tc'.Failure = none := by
  induction cases with
  | nil => simp [registeredFailure] at h
  | cons hd tl ih =>
    simp only [registeredFailure] at h
    cases hr : registeredFailure T tl with
    | some g =>
      rw [hr] at h
      simp only [Option.some.injEq] at h
      subst h
      obtain ⟨pre, tc, post, h1, h2, h3, h4⟩ := ih hr
      exact ⟨hd :: pre, tc, post, by rw [h1]; rfl, h2, h3, h4⟩
    | none =>
      rw [hr] at h
      by_cases hn : hd.Name = T
      · simp only [hn, if_true] at h
        exact ⟨[], hd, tl, rfl, hn, h, registeredFailure_eq_none T tl hr⟩
      · simp [hn] at h

theorem filter_through {α : Type} (keep g : α → Bool) (l : List α)
    (h : ∀ x, g x = true → keep x = true) : l.filter g = (l.filter keep).filter g := by
  rw [List.filter_filter]
  apply List.filter_congr
  intro x _
  cases hg : g x with
  | false => simp
  | true => simp [h x hg]

theorem any_isFailOf_filter (T : String) (l : List testEvent) :
    (l.filter (fun ev => ev.Test = T)).any (isFailOf T) = l.any (isFailOf T) := by
  induction l with
  | nil => rfl
  | cons ev rest ih =>
    by_cases hT : ev.Test = T
    · simp [List.filter_cons, hT, ih]
    · simp [List.filter_cons, hT, ih, isFailOf]

theorem expectedCases_filter_name (events : List testEvent) (pkg T : String)
    (l : List testEvent) :
    (expectedCases events pkg l).filter (fun tc => tc.Name = T) =
      expectedCases events pkg (l.filter (fun ev => ev.Test = T)) := by
  induction l with
  | nil => rfl
  | cons ev rest ih =>
    by_cases hT : ev.Test = T
    · by_cases hc : isCase ev = true
      · simp only [List.filter_cons, hT, decide_True, if_true, expectedCases, hc, ih,
          any_isFailOf_filter]
      · simp only [List.filter_cons, hT, decide_True, if_true, expectedCases, hc,
          Bool.false_eq_true, if_false, ih]
    · by_cases hc : isCase ev = true
      · simp only [List.filter_cons, hT, decide_False, Bool.false_eq_true, if_false,
          expectedCases, hc, if_true, ih]
      · simp only [List.filter_cons, hT, decide_False, Bool.false_eq_true, if_false,
          expectedCases, hc, ih]

theorem expectedCases_congr (events events' : List testEvent) (pkg : String)
    (l : List testEvent)
    (h : ∀ ev ∈ l, expectedBody events ev.Test = expectedBody events' ev.Test) :
    expectedCases events pkg l = expectedCases events' pkg l := by
  induction l with
  | nil => rfl
  | cons ev rest ih =>
    have hrest := ih (fun e he => h e (List.mem_cons_of_mem _ he))
    simp only [expectedCases, hrest, h ev (List.mem_cons_self _ _)]

theorem registeredFailure_filter (T : String) (cases : List testCase) :
    registeredFailure T cases = registeredFailure T (cases.filter (fun tc => tc.Name = T)) := by
  induction cases with
  | nil => rfl
  | cons tc rest ih =>
    by_cases hT : tc.Name = T
    · simp only [List.filter_cons, hT, decide_True, if_true, registeredFailure, ih]
    · simp only [List.filter_cons, hT, decide_False, Bool.false_eq_true, if_false,
        registeredFailure, ← ih]
      cases registeredFailure T rest <;> rfl

theorem expectedCases_body (events : List testEvent) (pkg : String) (l : List testEvent)
    (tc : testCase) (f : testFailure) (htc : tc ∈ expectedCases events pkg l)
    (hf : tc.Failure = some f) :
    f.Output = "" ∨ f.Output = expectedBody events tc.Name := by
  induction l with
  | nil => simp [expectedCases] at htc
  | cons ev rest ih =>
    by_cases hc : isCase ev = true
    · simp only [expectedCases, hc, if_true, List.mem_cons] at htc
      rcases htc with rfl | htc
      · by_cases ha : ev.Action = "fail"
        · simp only [ha, if_true, Option.some.injEq] at hf
          subst hf
          by_cases hany : rest.any (isFailOf ev.Test) = true
          · left; simp [hany]
          · right; simp [hany]
        · simp [ha] at hf
      · exact ih htc
    · simp only [expectedCases, hc, Bool.false_eq_true, if_false] at htc
      exact ih htc

/-! ## Lemmas on lines -/

theorem splitSep_append_sep {α : Type} [DecidableEq α] (sep : α) (l rest : List α)
    (h : sep ∉ l) : splitSep sep (l ++ sep :: rest) = l :: splitSep sep rest := by
  induction l with
  | nil => simp [splitSep]
  | cons c l' ih =>
    have hc : c ≠ sep := fun hc => h (by simp [hc])
    have hl : sep ∉ l' := fun hl => h (List.mem_cons_of_mem _ hl)
    simp [splitSep, hc, ih hl]

theorem splitSep_of_not_mem {α : Type} [DecidableEq α] (sep : α) (l : List α)
    (h : sep ∉ l) : splitSep sep l = [l] := by
  induction l with
  | nil => rfl
  | cons c l' ih =>
    have hc : c ≠ sep := fun hc => h (by simp [hc])
    have hl : sep ∉ l' := fun hl => h (List.mem_cons_of_mem _ hl)
    simp [splitSep, hc, ih hl]

theorem splitSep_ne_nil {α : Type} [DecidableEq α] (sep : α) (l : List α) :
    splitSep sep l ≠ [] := by
  cases l with
  | nil => simp [splitSep]
  | cons c rest =>
    by_cases hc : c = sep
    · simp [splitSep, hc]
    · cases hr : splitSep sep rest <;> simp [splitSep, hc, hr]

theorem splitLines_append_newline (l rest : List Char) (h : '\n' ∉ l) :
    splitLines (l ++ '\n' :: rest) = l :: splitLines rest :=
  splitSep_append_sep '\n' l rest h

theorem oneLine_data (out : String) (h : oneLine out = true) :
    out.data = out.data.dropLast ++ ['\n'] ∧ '\n' ∉ out.data.dropLast := by
  simp only [oneLine, Bool.and_eq_true, decide_eq_true_eq, Bool.not_eq_true'] at h
  refine ⟨(List.dropLast_append_getLast? _ (by rw [h.1]; rfl)).symm, ?_⟩
  intro hmem
  have : out.data.dropLast.contains '\n' = true := List.elem_iff.2 hmem
  rw [h.2] at this
  cases this

theorem splitLines_concatOutputs (evs : List testEvent)
    (h : ∀ ev ∈ evs, oneLine ev.Output = true) :
    splitLines (concatOutputs evs).data =
      evs.map (fun ev => ev.Output.data.dropLast) ++ [[]] := by
  induction evs with
  | nil => rfl
  | cons ev rest ih =>
    obtain ⟨h1, h2⟩ := oneLine_data ev.Output (h ev (List.mem_cons_self _ _))
    have hrest := ih (fun e he => h e (List.mem_cons_of_mem _ he))
    simp only [concatOutputs, String.data_append, List.map_cons, List.cons_append]
    rw [h1, List.append_assoc, List.singleton_append, splitLines_append_newline _ _ h2, hrest,
      ← h1]

theorem containsList_iff (sub l : List Char) : containsList sub l = true ↔ sub <:+: l := by
  induction l with
  | nil => simp [containsList]
  | cons c rest ih =>
    simp only [containsList, Bool.or_eq_true, ih, List.infix_cons_iff,
      List.isPrefixOf_iff_prefix]

theorem hasPrefix_of_dropLast (out : String) (pre : String)
    (h : hasPrefix ⟨out.data.dropLast⟩ pre = true) : hasPrefix out pre = true := by
  simp only [hasPrefix, List.isPrefixOf_iff_prefix] at h ⊢
  exact h.trans (List.dropLast_prefix _)

theorem contains_of_dropLast (out : String) (sub : String)
    (h : contains ⟨out.data.dropLast⟩ sub = true) : contains out sub = true := by
  simp only [contains, containsList_iff] at h ⊢
  exact h.trans (List.dropLast_prefix _).isInfix

/-! ## Lemmas on the parsing loop -/

theorem rawLines_of_not_mem (cur : List Nat) (h : 10 ∉ cur) :
    rawLines cur = if cur = [] then [] else [cur] := by
  rw [rawLines, splitSep_of_not_mem 10 cur h]
  by_cases hc : cur = []
  · simp [hc]
  · have : ¬ [] = cur := fun h' => hc h'.symm
    simp [hc, this]

theorem rawLines_append_newline (cur rest : List Nat) (h : 10 ∉ cur) :
    rawLines (cur ++ 10 :: rest) = cur :: rawLines rest := by
  rw [rawLines, rawLines, splitSep_append_sep 10 cur rest h]
  have hne := splitSep_ne_nil 10 rest
  cases hs : splitSep 10 rest with
  | nil => exact absurd hs hne
  | cons hd tl =>
    rw [List.getLast?_cons_cons]
    by_cases hl : (hd :: tl).getLast? = some []
    · simp [hl]
    · simp [hl]

theorem scanTokens_eq (buf cur : List Nat) (hcur : 10 ∉ cur)
    (hshort : ∀ l ∈ rawLines (cur ++ buf), l.length < maxScanTokenSize) :
    scanTokens cur buf = ((rawLines (cur ++ buf)).map dropCR, none) := by
  induction buf generalizing cur with
  | nil =>
    rw [List.append_nil] at hshort ⊢
    rw [rawLines_of_not_mem cur hcur] at hshort ⊢
    by_cases hc : cur = []
    · simp [scanTokens, hc]
    · have := hshort cur (by simp [hc])
      simp [scanTokens, hc, Nat.not_le.2 this]
  | cons b rest ih =>
    by_cases hb : b = 10
    · subst hb
      rw [rawLines_append_newline cur rest hcur] at hshort ⊢
      have h1 := hshort cur (List.mem_cons_self _ _)
      have h2 := ih [] (by simp) (by
        intro l hl
        exact hshort l (List.mem_cons_of_mem _ (by simpa using hl)))
      simp only [List.nil_append] at h2
      simp [scanTokens, Nat.not_le.2 h1, h2]
    · have hcur' : 10 ∉ cur ++ [b] := by
        intro hmem
        rcases List.mem_append.1 hmem with h | h
        · exact hcur h
        · have hbe : 10 = b := by simpa using h
          exact hb hbe.symm
      have hEq : cur ++ [b] ++ rest = cur ++ b :: rest := by simp
      have := ih (cur ++ [b]) hcur' (by rw [hEq]; exact hshort)
      rw [hEq] at this
      simp only [scanTokens, hb, if_false, this]

theorem scanTokens_too_long (buf cur : List Nat) (hbuf : 10 ∉ buf)
    (hlong : maxScanTokenSize ≤ (cur ++ buf).length) :
    scanTokens cur buf = ([], some parseError.ErrTooLong) := by
  induction buf generalizing cur with
  | nil =>
    rw [List.append_nil] at hlong
    have hc : cur ≠ [] := by
      intro h; rw [h] at hlong; simp [maxScanTokenSize] at hlong
    simp [scanTokens, hc, hlong]
  | cons b rest ih =>
    have hb : b ≠ 10 := fun h => hbuf (by simp [h])
    have hrest : 10 ∉ rest := fun h => hbuf (List.mem_cons_of_mem _ h)
    simp only [scanTokens, hb, if_false]
    apply ih (cur ++ [b]) hrest
    simpa using hlong

theorem runTests.parseLoop_eq (d : Decoder) (scanErr : Option parseError)
    (toks : List (List Nat)) (events : List testEvent)
    (hdec : ∀ l ∈ toks, (d.unmarshal l).isSome = true) :
    ∃ more, runTests.parseLoop d scanErr events toks = (events ++ more, scanErr) ∧
      more.map some = toks.map d.unmarshal := by
  induction toks generalizing events with
  | nil => exact ⟨[], by simp [runTests.parseLoop], rfl⟩
  | cons tok rest ih =>
    have h := hdec tok (List.mem_cons_self _ _)
    cases hu : d.unmarshal tok with
    | none => rw [hu] at h; cases h
    | some ev =>
      obtain ⟨more, h1, h2⟩ := ih (events ++ [ev]) (fun l hl => hdec l (List.mem_cons_of_mem _ hl))
      refine ⟨ev :: more, ?_, ?_⟩
      · simp only [runTests.parseLoop, hu, h1, List.append_assoc, List.singleton_append]
      · simp [hu, h2]

theorem runTests.parseLoop_bad (d : Decoder) (scanErr : Option parseError)
    (pre post : List (List Nat)) (bad : List Nat) (events : List testEvent)
    (hpre : ∀ l ∈ pre, (d.unmarshal l).isSome = true) (hbad : d.unmarshal bad = none) :
    ∃ more, runTests.parseLoop d scanErr events (pre ++ bad :: post) =
        (events ++ more, some parseError.decodeError) ∧
      more.map some = pre.map d.unmarshal := by
  induction pre generalizing events with
  | nil => exact ⟨[], by simp [runTests.parseLoop, hbad], rfl⟩
  | cons tok rest ih =>
    have h := hpre tok (List.mem_cons_self _ _)
    cases hu : d.unmarshal tok with
    | none => rw [hu] at h; cases h
    | some ev =>
      obtain ⟨more, h1, h2⟩ :=
        ih (events ++ [ev]) (fun l hl => hpre l (List.mem_cons_of_mem _ hl))
      refine ⟨ev :: more, ?_, ?_⟩
      · have hcons : (tok :: rest) ++ bad :: post = tok :: (rest ++ bad :: post) := rfl
        rw [hcons]
        simp only [runTests.parseLoop, hu]
        rw [h1]
        simp
      · simp [hu, h2]

theorem runTests.parse_bad (d : Decoder) (buf : List Nat) (pre post : List (List Nat))
    (bad : List Nat) (hshort : ∀ l ∈ rawLines buf, l.length < maxScanTokenSize)
    (hlines : bufferLines buf = pre ++ bad :: post)
    (hpre : ∀ l ∈ pre, (d.unmarshal l).isSome = true) (hbad : d.unmarshal bad = none) :
    ∃ events, runTests.parse d buf = (events, some parseError.decodeError) ∧
      events.map some = pre.map d.unmarshal := by
  have hscan := scanTokens_eq buf [] (by simp) (by simpa using hshort)
  simp only [List.nil_append] at hscan
  obtain ⟨more, h1, h2⟩ := runTests.parseLoop_bad d none pre post bad [] hpre hbad
  refine ⟨more, ?_, h2⟩
  rw [runTests.parse, hscan]
  simp only [bufferLines] at hlines
  simp only [hlines]
  simpa using h1

theorem runTests.forward_eq (rest : List String) :
    runTests.forward rest = "test" :: "-json" :: rest.filter (fun a => a ≠ "-json") := by
  have h : ∀ (l acc : List String),
      l.foldl (fun args arg => if arg ≠ "-json" then args ++ [arg] else args) acc =
        acc ++ l.filter (fun a => a ≠ "-json") := by
    intro l
    induction l with
    | nil => intro acc; simp
    | cons a tl ih =>
      intro acc
      rw [List.foldl_cons, ih]
      by_cases ha : a = "-json"
      · simp [ha]
      · simp [ha, List.filter_cons]
  rw [runTests.forward, h]
  rfl

theorem runTests.of_started (d : Decoder) (w : World) (htemp : w.tempFileOk = true)
    (hrun : (w.child (runTests.forward w.cmdArgs)).1 ≠ runResult.otherError)
    (hseek : w.seekOk = true) :
    (runTests d w).1 = (runTests.parse d (w.child (runTests.forward w.cmdArgs)).2).1 ∧
    (runTests d w).2.2 =
      (runTests.parse d (w.child (runTests.forward w.cmdArgs)).2).2.map runError.parse := by
  unfold runTests
  cases hr : (w.child (runTests.forward w.cmdArgs)).1 with
  | otherError => exact absurd hr hrun
  | exitError code => simp [htemp, hseek, hr]
  | success => simp [htemp, hseek, hr]

/-! ## Lemmas on counts and repeated failures -/

theorem expectedCases_length (events : List testEvent) (pkg : String) (l : List testEvent) :
    (expectedCases events pkg l).length = (l.filter isCase).length := by
  have h := congrArg List.length (expectedCases_core events pkg l)
  simpa using h

theorem expectedCases_failures (events : List testEvent) (pkg : String)
    (l : List testEvent) :
    ((expectedCases events pkg l).filter (fun tc => tc.Failure.isSome)).length =
      (l.filter isFail).length := by
  induction l with
  | nil => rfl
  | cons ev rest ih =>
    by_cases hc : isCase ev = true
    · by_cases ha : ev.Action = "fail"
      · have hf : isFail ev = true := by rw [isFail_eq]; simp [hc, ha]
        simp [expectedCases, hc, ha, hf, List.filter_cons, ih]
      · have hf : isFail ev = false := by rw [isFail_eq]; simp [ha]
        simp [expectedCases, hc, ha, hf, List.filter_cons, ih]
    · have hc' : isCase ev = false := by simpa using hc
      have hf : isFail ev = false := by rw [isFail_eq]; simp [hc']
      simp [expectedCases, hc', hf, List.filter_cons, ih]

theorem fail_add_skip_le (l : List testEvent) :
    (l.filter isFail).length +
        (l.filter (fun ev => isCase ev && decide (ev.Action = "skip"))).length ≤
      (l.filter isCase).length := by
  induction l with
  | nil => simp
  | cons ev rest ih =>
    by_cases hc : isCase ev = true
    · by_cases ha : ev.Action = "fail"
      · have hf : isFail ev = true := by rw [isFail_eq]; simp [hc, ha]
        have hs : ¬ ev.Action = "skip" := by rw [ha]; decide
        simp only [List.filter_cons, hc, hf, hs, if_true, decide_False, Bool.and_false,
          Bool.false_eq_true, if_false, List.length_cons]
        omega
      · have hf : isFail ev = false := by rw [isFail_eq]; simp [ha]
        by_cases hs : ev.Action = "skip"
        · simp only [List.filter_cons, hc, hf, hs, if_true, decide_True, Bool.and_true,
            Bool.false_eq_true, if_false, List.length_cons]
          omega
        · simp only [List.filter_cons, hc, hf, hs, if_true, decide_False, Bool.and_false,
            Bool.false_eq_true, if_false, List.length_cons]
          omega
    · have hc' : isCase ev = false := by simpa using hc
      have hf : isFail ev = false := by rw [isFail_eq]; simp [hc']
      simp only [List.filter_cons, hc', hf, Bool.false_and, Bool.false_eq_true, if_false]
      exact ih

theorem any_isFailOf_iff (T : String) (l : List testEvent) :
    l.any (isFailOf T) = true ↔ (l.filter (isFailOf T)).length ≠ 0 := by
  rw [List.any_eq_true, Ne, List.length_eq_zero, List.filter_eq_nil_iff]
  constructor
  · rintro ⟨x, hx, hfx⟩ h
    exact h x hx hfx
  · intro h
    by_contra hno
    apply h
    intro x hx hfx
    exact hno ⟨x, hx, hfx⟩

theorem expectedCases_failed_records (events : List testEvent) (pkg T : String)
    (l : List testEvent) :
    ((expectedCases events pkg l).filter
        (fun tc => decide (tc.Name = T) && tc.Failure.isSome)).map (fun tc => tc.Failure) =
      List.replicate ((l.filter (isFailOf T)).length - 1) (some ⟨"go.error", "error", ""⟩) ++
        (if (l.filter (isFailOf T)).length = 0 then []
          else [some ⟨"go.error", "error", expectedBody events T⟩]) := by
  induction l with
  | nil => rfl
  | cons ev rest ih =>
    by_cases hfo : isFailOf T ev = true
    · have hparts : isFail ev = true ∧ ev.Test = T := by
        simpa [isFailOf] using hfo
      have hc : isCase ev = true := isFail_isCase ev hparts.1
      have ha : ev.Action = "fail" := by
        have := hparts.1
        simp only [isFail, Bool.and_eq_true, decide_eq_true_eq] at this
        exact this.2
      have hT := hparts.2
      by_cases hany : rest.any (isFailOf T) = true
      · have hn : (rest.filter (isFailOf T)).length ≠ 0 := (any_isFailOf_iff T rest).1 hany
        obtain ⟨m, hm⟩ : ∃ m, (rest.filter (isFailOf T)).length = m + 1 :=
          ⟨(rest.filter (isFailOf T)).length - 1, by omega⟩
        rw [hm] at ih
        simp only [expectedCases, hc, ha, hT, hany, if_true, List.filter_cons, hfo,
          decide_True, Option.isSome_some, Bool.and_self, List.map_cons, ih, List.length_cons,
          hm]
        simp [List.replicate_succ]
      · have hn : (rest.filter (isFailOf T)).length = 0 := by
          by_contra hne
          exact hany ((any_isFailOf_iff T rest).2 hne)
        rw [hn] at ih
        simp only [expectedCases, hc, ha, hT, hany, if_true, List.filter_cons, hfo,
          decide_True, Option.isSome_some, Bool.and_self, List.map_cons, ih, List.length_cons,
          hn]
        simp
    · have hfo' : isFailOf T ev = false := by simpa using hfo
      have hskip : (expectedCases events pkg (ev :: rest)).filter
            (fun tc => decide (tc.Name = T) && tc.Failure.isSome) =
          (expectedCases events pkg rest).filter
            (fun tc => decide (tc.Name = T) && tc.Failure.isSome) := by
        by_cases hc : isCase ev = true
        · by_cases ha : ev.Action = "fail"
          · have hf : isFail ev = true := by rw [isFail_eq]; simp [hc, ha]
            have hT : ¬ ev.Test = T := by
              intro h; rw [isFailOf, hf, h] at hfo'; simp at hfo'
            simp [expectedCases, hc, ha, List.filter_cons, hT]
          · simp [expectedCases, hc, ha, List.filter_cons]
        · simp [expectedCases, hc]
      rw [hskip, ih]
      simp [List.filter_cons, hfo']

/-! ## Lemmas on runs -/

theorem GoMap.sameEntries_set {V : Type} (m m' : GoMap V) (k : String) (v : V)
    (h : GoMap.sameEntries m m') : GoMap.sameEntries (m.set k v) (m'.set k v) := by
  intro k'
  rw [GoMap.get_set, GoMap.get_set, h k']

theorem GoMap.len_eq_zero_iff {V : Type} (m : GoMap V) :
    m.len = 0 ↔ ∀ k, m.get k = none := by
  constructor
  · exact GoMap.get_of_len_zero m
  · intro h
    cases m with
    | nil => rfl
    | cons hd tl =>
      obtain ⟨k, v⟩ := hd
      have := h k
      simp [GoMap.get] at this

theorem GoMap.sameEntries_len {V : Type} (m m' : GoMap V) (h : GoMap.sameEntries m m') :
    m.len = 0 ↔ m'.len = 0 := by
  rw [GoMap.len_eq_zero_iff, GoMap.len_eq_zero_iff]
  constructor
  · intro hm k; rw [← h k]; exact hm k
  · intro hm k; rw [h k]; exact hm k

theorem report.groupStep_congr (st st' : List String × GoMap (List testEvent))
    (ev : testEvent) (h1 : st.1 = st'.1) (h2 : GoMap.sameEntries st.2 st'.2) :
    (report.groupStep st ev).1 = (report.groupStep st' ev).1 ∧
      GoMap.sameEntries (report.groupStep st ev).2 (report.groupStep st' ev).2 := by
  simp only [report.groupStep, h1, h2 ev.Package]
  exact ⟨trivial, GoMap.sameEntries_set _ _ _ _ h2⟩

theorem report.groupRun_foldl (st out : List String × GoMap (List testEvent))
    (events : List testEvent) (hrun : report.groupRun st events out) :
    ∀ st0 : List String × GoMap (List testEvent), st0.1 = st.1 →
      GoMap.sameEntries st0.2 st.2 →
      (events.foldl report.groupStep st0).1 = out.1 ∧
        GoMap.sameEntries (events.foldl report.groupStep st0).2 out.2 := by
  induction hrun with
  | done st => intro st0 h1 h2; exact ⟨h1, h2⟩
  | step st ev rest m' out h _ ih =>
    intro st0 h1 h2
    obtain ⟨c1, c2⟩ := report.groupStep_congr st0 st ev h1 h2
    rw [List.foldl_cons]
    exact ih (report.groupStep st0 ev) c1 (fun k => (c2 k).trans (h k))

theorem report.groupRun_of_foldl (events : List testEvent)
    (st : List String × GoMap (List testEvent)) :
    report.groupRun st events (events.foldl report.groupStep st) := by
  induction events generalizing st with
  | nil => exact report.groupRun.done st
  | cons ev rest ih =>
    exact report.groupRun.step st ev rest (report.groupStep st ev).2 _ (fun _ => rfl)
      (ih (report.groupStep st ev))

theorem report.caseStep_agree (pkg : String) (st st' : suiteState) (ev : testEvent)
    (h : suiteState.agree st st') :
    suiteState.agree (report.caseStep pkg st ev) (report.caseStep pkg st' ev) := by
  obtain ⟨h1, h2, h3, h4, h5, h6⟩ := h
  by_cases hf : isFail ev = true
  · rw [report.caseStep_of_isFail pkg st ev hf, report.caseStep_of_isFail pkg st' ev hf]
    refine ⟨?_, ?_, h3, ?_, ?_, ?_⟩
    · show st.Tests + 1 = st'.Tests + 1
      rw [h1]
    · show st.Failures + 1 = st'.Failures + 1
      rw [h2]
    · show st.TestCases ++ _ = st'.TestCases ++ _
      rw [h4, h5]
    · show st.store ++ _ = st'.store ++ _
      rw [h5]
    · show GoMap.sameEntries (st.failures.set ev.Test st.store.length)
        (st'.failures.set ev.Test st'.store.length)
      rw [h5]
      exact GoMap.sameEntries_set _ _ _ _ h6
  · by_cases hc : isCase ev = true
    · have hne : ev.Action ≠ "fail" := by
        intro h; apply hf; rw [isFail_eq]; simp [hc, h]
      obtain ⟨a1, a2, a3⟩ := report.caseStep_of_isCase_not_fail pkg st ev hc hne
      obtain ⟨b1, b2, b3⟩ := report.caseStep_of_isCase_not_fail pkg st' ev hc hne
      have hcount : (report.caseStep pkg st ev).Tests = (report.caseStep pkg st' ev).Tests ∧
          (report.caseStep pkg st ev).Failures = (report.caseStep pkg st' ev).Failures ∧
          (report.caseStep pkg st ev).Skip = (report.caseStep pkg st' ev).Skip := by
        obtain ⟨p1, p2, p3⟩ := report.first_pass_counts pkg [ev] st
        obtain ⟨q1, q2, q3⟩ := report.first_pass_counts pkg [ev] st'
        simp only [List.foldl_cons, List.foldl_nil] at p1 p2 p3 q1 q2 q3
        rw [p1, p2, p3, q1, q2, q3, h1, h2, h3]
        exact ⟨rfl, rfl, rfl⟩
      refine ⟨hcount.1, hcount.2.1, hcount.2.2, ?_, ?_, ?_⟩
      · rw [a3, b3, h4]
      · rw [a1, b1, h5]
      · rw [a2, b2]; exact h6
    · have hc' : isCase ev = false := by simpa using hc
      rw [report.caseStep_of_not_isCase pkg st ev hc',
        report.caseStep_of_not_isCase pkg st' ev hc']
      exact ⟨h1, h2, h3, h4, h5, h6⟩

theorem report.caseRun_foldl (pkg : String) (st out : suiteState) (l : List testEvent)
    (hrun : report.caseRun pkg st l out) :
    ∀ st0 : suiteState, suiteState.agree st0 st →
      suiteState.agree (l.foldl (report.caseStep pkg) st0) out := by
  induction hrun with
  | done st => intro st0 h; exact h
  | step st ev rest fm' out h _ ih =>
    intro st0 hagree
    obtain ⟨c1, c2, c3, c4, c5, c6⟩ := report.caseStep_agree pkg st0 st ev hagree
    rw [List.foldl_cons]
    exact ih (report.caseStep pkg st0 ev) ⟨c1, c2, c3, c4, c5, fun k => (c6 k).trans (h k)⟩

theorem report.caseRun_of_foldl (pkg : String) (l : List testEvent) (st : suiteState) :
    report.caseRun pkg st l (l.foldl (report.caseStep pkg) st) := by
  induction l generalizing st with
  | nil => exact report.caseRun.done st
  | cons ev rest ih =>
    exact report.caseRun.step st ev rest (report.caseStep pkg st ev).failures _ (fun _ => rfl)
      (ih (report.caseStep pkg st ev))

theorem report.outputStep_congr (fm fm' : GoMap Nat) (h : GoMap.sameEntries fm fm') :
    report.outputStep fm = report.outputStep fm' := by
  funext store ev
  simp only [report.outputStep, h ev.Test]

theorem report.suiteOf_agree (events : List testEvent) (pkg : String) (st st' : suiteState)
    (h : suiteState.agree st st') :
    report.suiteOf events pkg st = report.suiteOf events pkg st' := by
  obtain ⟨h1, h2, h3, h4, h5, h6⟩ := h
  have hlen := GoMap.sameEntries_len _ _ h6
  simp only [report.suiteOf, h1, h2, h3, h4, h5, report.outputStep_congr _ _ h6]
  by_cases hz : st'.failures.len = 0
  · simp [hz, hlen.2 hz]
  · have hz' : ¬ st.failures.len = 0 := fun h => hz (hlen.1 h)
    simp [hz, hz']

theorem report.suiteRun_eq (events : List testEvent) (pkg : String) (l : List testEvent)
    (s : testSuite) (h : report.suiteRun events pkg l s) : s = report.suite events pkg l := by
  obtain ⟨st, hrun, hs⟩ := h
  have hagree := report.caseRun_foldl pkg suiteState.init st l hrun suiteState.init
    ⟨rfl, rfl, rfl, rfl, rfl, fun _ => rfl⟩
  rw [hs, ← report.suiteOf_agree events pkg _ _ hagree]
  rfl

theorem report.Run_eq (events : List testEvent) (suites : List testSuite)
    (h : report.Run events suites) : suites = report.testSuites events := by
  obtain ⟨order, pkgs, hg, hall⟩ := h
  obtain ⟨ho, hm⟩ := report.groupRun_foldl _ _ events hg ([], []) rfl (fun _ => rfl)
  simp only at ho hm
  have hmap : ∀ (l : List String) (ss : List testSuite),
      List.Forall₂ (fun pkg s => report.suiteRun events pkg ((pkgs.get pkg).getD []) s) l ss →
        ss = l.map (fun pkg =>
          report.suite events pkg (((report.group events).2.get pkg).getD [])) := by
    intro l ss hf
    induction hf with
    | nil => rfl
    | cons hhead _ ih =>
      rw [List.map_cons, ← ih]
      congr 1
      rw [report.suiteRun_eq events _ _ _ hhead]
      congr 2
      exact (hm _).symm
  rw [hmap order suites hall, ← ho]
  rfl

theorem report.Run_testSuites (events : List testEvent) :
    report.Run events (report.testSuites events) := by
  refine ⟨(report.group events).1, (report.group events).2,
    report.groupRun_of_foldl events ([], []), ?_⟩
  simp only [report.testSuites]
  generalize (report.group events).1 = order
  induction order with
  | nil => exact List.Forall₂.nil
  | cons pkg rest ih =>
    exact List.Forall₂.cons ⟨_, report.caseRun_of_foldl pkg _ suiteState.init, rfl⟩ ih

/-- A run on `layoutEvents` in which the runtime swaps the two entries of `pkgs`. -/
theorem report.Run_layoutSwapped : report.Run layoutEvents layoutSuites := by
  have hswap : GoMap.sameEntries
      (report.groupStep (["q"], [("q", [⟨"TestB", 7, "pass", "q", ""⟩])])
        ⟨"TestA", 5, "fail", "p", ""⟩).2 layoutSwapped := by
    intro k
    by_cases hq : "q" = k
    · subst hq; decide
    · by_cases hp : "p" = k
      · subst hp; decide
      · simp [report.groupStep, GoMap.set, GoMap.get, layoutSwapped, hq, hp]
  refine ⟨["q", "p"], layoutSwapped, ?_, ?_⟩
  · exact report.groupRun.step _ _ _ [("q", [⟨"TestB", 7, "pass", "q", ""⟩])] _ (fun _ => rfl)
      (report.groupRun.step _ _ _ layoutSwapped _ hswap (report.groupRun.done _))
  · refine List.Forall₂.cons ⟨_, report.caseRun_of_foldl "q" _ suiteState.init, by decide⟩
      (List.Forall₂.cons ⟨_, report.caseRun_of_foldl "p" _ suiteState.init, by decide⟩
        List.Forall₂.nil)

/-! ## Lemmas on the printer -/

theorem printer.writeStart_first (name : String) (attrs : List (String × String)) :
    (⟨"", 0, false, false⟩ : printer).writeStart name attrs =
      ⟨startTagText name attrs, 1, true, true⟩ := by
  simp [printer.writeStart, printer.writeIndent, indentText]

theorem printer.writeStart_next (p : printer) (name : String) (attrs : List (String × String))
    (h : p.putNewline = true) :
    p.writeStart name attrs =
      ⟨p.out ++ ("\n" ++ indentText p.depth ++ startTagText name attrs), p.depth + 1, true,
        true⟩ := by
  simp [printer.writeStart, printer.writeIndent, h, String.append_assoc]

theorem printer.writeEnd_at_once (p : printer) (name : String) (h : p.indentedIn = true) :
    p.writeEnd name = ⟨p.out ++ endTagText name, p.depth - 1, false, p.putNewline⟩ := by
  simp [printer.writeEnd, printer.writeIndent, h]

theorem printer.writeEnd_on_new_line (p : printer) (name : String)
    (h : p.indentedIn = false) (hn : p.putNewline = true) :
    p.writeEnd name =
      ⟨p.out ++ ("\n" ++ indentText (p.depth - 1) ++ endTagText name), p.depth - 1, false,
        true⟩ := by
  simp [printer.writeEnd, printer.writeIndent, h, hn, String.append_assoc]

theorem xmlNode.marshal_element (formatFloat : Nat → String) (name : String)
    (attrs : List xmlAttr) (children : List xmlNode) (p : printer) :
    xmlNode.marshal formatFloat (xmlNode.element name attrs children) p =
      (xmlNode.marshalAll formatFloat children
        (p.writeStart name
          (attrs.map (fun a => (a.name, a.value.text formatFloat))))).writeEnd name := by
  rw [xmlNode.marshal]

theorem xmlNode.marshal_cdata (formatFloat : Nat → String) (text : String) (p : printer) :
    xmlNode.marshal formatFloat (xmlNode.cdata text) p =
      { p with out := p.out ++ emitCDATA text } := by
  rw [xmlNode.marshal]

theorem xmlNode.marshalAll_nil (formatFloat : Nat → String) (p : printer) :
    xmlNode.marshalAll formatFloat [] p = p := by
  rw [xmlNode.marshalAll]

theorem xmlNode.marshalAll_cons (formatFloat : Nat → String) (node : xmlNode)
    (rest : List xmlNode) (p : printer) :
    xmlNode.marshalAll formatFloat (node :: rest) p =
      xmlNode.marshalAll formatFloat rest (xmlNode.marshal formatFloat node p) := by
  rw [xmlNode.marshalAll]

theorem xmlNode.marshalAll_map {α : Type} (formatFloat : Nat → String) (d : Nat)
    (f : α → xmlNode) (text : α → String)
    (h : ∀ (a : α) (p : printer), p.depth = d → p.putNewline = true →
      xmlNode.marshal formatFloat (f a) p = ⟨p.out ++ text a, d, false, true⟩)
    (l : List α) :
    ∀ p : printer, p.depth = d → p.putNewline = true →
      xmlNode.marshalAll formatFloat (l.map f) p =
        ⟨p.out ++ concatText (l.map text), d, l.isEmpty && p.indentedIn, true⟩ := by
  induction l with
  | nil =>
    intro p hd hn
    cases p
    simp only at hd hn
    subst hd hn
    simp [xmlNode.marshalAll_nil, concatText]
  | cons a rest ih =>
    intro p hd hn
    rw [List.map_cons, xmlNode.marshalAll_cons, h a p hd hn, ih _ rfl rfl]
    simp [concatText, String.append_assoc]

theorem marshal_failure_element (formatFloat : Nat → String) (f : testFailure)
    (p : printer) (hd : p.depth = 3) (hn : p.putNewline = true) :
    xmlNode.marshal formatFloat f.toXml p = ⟨p.out ++ failureText f, 3, false, true⟩ := by
  rw [testFailure.toXml, xmlNode.marshal_element, xmlNode.marshalAll_cons,
    xmlNode.marshalAll_nil, xmlNode.marshal_cdata, printer.writeStart_next p _ _ hn,
    printer.writeEnd_at_once _ _ rfl]
  simp [failureText, hd, xmlValue.text, String.append_assoc]

theorem marshal_testcase_element (formatFloat : Nat → String) (tc : testCase)
    (p : printer) (hd : p.depth = 2) (hn : p.putNewline = true) :
    xmlNode.marshal formatFloat tc.toXml p =
      ⟨p.out ++ caseText formatFloat tc, 2, false, true⟩ := by
  rw [testCase.toXml, xmlNode.marshal_element, printer.writeStart_next p _ _ hn]
  cases hF : tc.Failure with
  | none =>
    simp only []
    rw [xmlNode.marshalAll_nil, printer.writeEnd_at_once _ _ rfl]
    simp [caseText, hF, hd, xmlValue.text, String.append_assoc]
  | some f =>
    simp only []
    rw [xmlNode.marshalAll_cons, xmlNode.marshalAll_nil,
      marshal_failure_element formatFloat f _ (by simp [hd]) rfl,
      printer.writeEnd_on_new_line _ _ rfl rfl]
    simp [caseText, hF, hd, xmlValue.text, String.append_assoc]

theorem marshal_testsuite_element (formatFloat : Nat → String) (s : testSuite)
    (p : printer) (hd : p.depth = 1) (hn : p.putNewline = true) :
    xmlNode.marshal formatFloat s.toXml p =
      ⟨p.out ++ suiteText formatFloat s, 1, false, true⟩ := by
  rw [testSuite.toXml, xmlNode.marshal_element, printer.writeStart_next p _ _ hn,
    xmlNode.marshalAll_map formatFloat 2 testCase.toXml (caseText formatFloat)
      (marshal_testcase_element formatFloat) s.TestCases _ (by simp [hd]) rfl]
  by_cases hempty : s.TestCases = []
  · rw [printer.writeEnd_at_once _ _ (by simp [hempty])]
    simp [suiteText, hempty, hd, concatText, xmlValue.text, String.append_assoc]
  · rw [printer.writeEnd_on_new_line _ _ (by simp [hempty]) rfl]
    simp [suiteText, hempty, hd, xmlValue.text, String.append_assoc]

theorem goEncoder_documentOf (formatFloat : Nat → String) (suites : List testSuite) :
    (goEncoder formatFloat).encode (report.documentOf suites) =
      documentText formatFloat suites := by
  simp only [goEncoder, report.documentOf]
  rw [xmlNode.marshal_element, List.map_nil, printer.writeStart_first,
    xmlNode.marshalAll_map formatFloat 1 testSuite.toXml (suiteText formatFloat)
      (marshal_testsuite_element formatFloat) suites _ rfl rfl]
  by_cases hempty : suites = []
  · rw [printer.writeEnd_at_once _ _ (by simp [hempty])]
    simp [documentText, hempty, concatText]
  · rw [printer.writeEnd_on_new_line _ _ (by simp [hempty]) rfl]
    simp [documentText, hempty, indentText, String.append_assoc]

theorem cdataChars_of_no_end (l : List Char)
    (h : containsList "]]>".data l = false) : cdataChars l = l := by
  induction l using cdataChars.induct with
  | case1 rest _ => simp [containsList, List.isPrefixOf] at h
  | case2 c rest hne ih =>
    have hrest : containsList "]]>".data rest = false := by
      simp only [containsList, Bool.or_eq_false_iff] at h
      exact h.2
    rw [cdataChars, ih hrest]
    · exact hne
  | case3 => rfl

theorem emitCDATA_of_no_end (body : String) (hne : body ≠ "")
    (h : contains body "]]>" = false) :
    emitCDATA body = "<![CDATA[" ++ body ++ "]]>" := by
  have hdata : body.data ≠ [] := by
    intro hd
    apply hne
    cases body
    simp only at hd
    subst hd
    rfl
  simp only [emitCDATA, hdata, if_false, cdataChars_of_no_end body.data h]

/-! ## The claims -/

/-- C1: for every package `P` occurring in the events there is exactly one suite named
`P`, and its test cases are, in order and without de-duplication, one per event of package
`P` with a non-empty test and action pass, fail or skip, with classname `P`, name the
event's test and time the event's elapsed; no other event contributes a record. -/
theorem C1_cases_follow_events (events : List testEvent) (P : String)
    (hP : ∃ ev ∈ events, ev.Package = P) :
    ∃ s, suitesNamed (report.testSuites events) P = [s] ∧
      s.TestCases.map (fun tc => (tc.Classname, tc.Name, tc.Time)) =
        (events.filter (fun ev => decide (ev.Package = P) && isCase ev)).map
          (fun ev => (P, ev.Test, ev.Elapsed)) := by
  refine ⟨_, report.suitesNamed_eq events P hP, ?_⟩
  rw [report.suite_TestCases]
  have h := congrArg (List.map (fun x : String × String × Nat × Option (String × String) =>
    (x.1, x.2.1, x.2.2.1)))
    (expectedCases_core events P (events.filter (fun ev => ev.Package = P)))
  simp only [List.map_map, List.filter_filter] at h
  rw [show (events.filter (fun ev => decide (ev.Package = P) && isCase ev)) =
      events.filter (fun a => isCase a && decide (a.Package = P)) from
    List.filter_congr (fun x _ => Bool.and_comm _ _)]
  exact h

theorem C1_cases_follow_events_witness :
    (∃ ev ∈ sampleEvents, ev.Package = "p") ∧
    ∃ s, suitesNamed (report.testSuites sampleEvents) "p" = [s] ∧
      s.TestCases.map (fun tc => (tc.Classname, tc.Name, tc.Time)) =
        (sampleEvents.filter (fun ev => decide (ev.Package = "p") && isCase ev)).map
          (fun ev => ("p", ev.Test, ev.Elapsed)) :=
  ⟨⟨⟨"TestA", 3, "run", "p", ""⟩, by decide, rfl⟩,
    C1_cases_follow_events sampleEvents "p" ⟨⟨"TestA", 3, "run", "p", ""⟩, by decide, rfl⟩⟩

/-- C2: the names of the suites, in order, are the package values of the events with
every later duplicate removed; in particular no two suites share a name. -/
theorem C2_suites_in_first_occurrence_order (events : List testEvent) :
    (report.testSuites events).map (fun s => s.Name) =
        firstOccurrences (events.map (fun ev => ev.Package)) ∧
      ((report.testSuites events).map (fun s => s.Name)).Nodup := by
  rw [report.testSuites_names]
  exact ⟨rfl, firstOccurrences_nodup _⟩

/-- C3: for a non-empty test name `T` with a `fail` event in package `P`, suite `P`
exists and the last of its test cases named `T` that carries a failure has as body the
concatenation, in input order, of the text of every `output` event of the whole sequence
whose test is `T`, those starting with `=== RUN` or containing `--- FAIL` left out. -/
theorem C3_failure_body (events : List testEvent) (P T : String) (hT : T ≠ "")
    (hfail : ∃ ev ∈ events, ev.Package = P ∧ ev.Test = T ∧ ev.Action = "fail") :
    ∃ s, suitesNamed (report.testSuites events) P = [s] ∧
      ∃ pre tc post, s.TestCases = pre ++ tc :: post ∧ tc.Name = T ∧
        tc.Failure = some ⟨"go.error", "error",
          concatOutputs (events.filter (fun ev =>
            decide (ev.Action = "output") && decide (ev.Test = T) &&
              !(hasPrefix ev.Output "=== RUN" || contains ev.Output "--- FAIL")))⟩ ∧
        ∀ tc' ∈ post, tc'.Name = T → tc'.Failure = none := by
  obtain ⟨ev, hev, hp, ht, ha⟩ := hfail
  refine ⟨_, report.suitesNamed_eq events P ⟨ev, hev, hp⟩, ?_⟩
  rw [report.suite_TestCases]
  apply registeredFailure_decompose
  rw [registeredFailure_expectedCases]
  have hany : (events.filter (fun ev => ev.Package = P)).any (isFailOf T) = true := by
    rw [List.any_eq_true]
    refine ⟨ev, List.mem_filter.2 ⟨hev, by simp [hp]⟩, ?_⟩
    simp [isFailOf, isFail, ht, ha, hT]
  rw [if_pos hany]
  rfl

theorem C3_failure_body_witness :
    ("TestA" ≠ "" ∧
      ∃ ev ∈ sampleEvents, ev.Package = "p" ∧ ev.Test = "TestA" ∧ ev.Action = "fail") ∧
    ∃ s, suitesNamed (report.testSuites sampleEvents) "p" = [s] ∧
      ∃ pre tc post, s.TestCases = pre ++ tc :: post ∧ tc.Name = "TestA" ∧
        tc.Failure = some ⟨"go.error", "error",
          concatOutputs (sampleEvents.filter (fun ev =>
            decide (ev.Action = "output") && decide (ev.Test = "TestA") &&
              !(hasPrefix ev.Output "=== RUN" || contains ev.Output "--- FAIL")))⟩ ∧
        ∀ tc' ∈ post, tc'.Name = "TestA" → tc'.Failure = none :=
  ⟨⟨by decide, ⟨"TestA", 5, "fail", "p", ""⟩, by decide, rfl, rfl, rfl⟩,
    C3_failure_body sampleEvents "p" "TestA" (by decide)
      ⟨⟨"TestA", 5, "fail", "p", ""⟩, by decide, rfl, rfl, rfl⟩⟩

/-- C4: for every package `P` occurring in the events, the test cases of suite `P` are one
per event of `P` that yields a case, with classname `P` and the name of the event; the
record of a `fail` event carries a failure of type `go.error` and message `error`, and the
record of any other event carries none. -/
theorem C4_failure_iff_fail_event (events : List testEvent) (P : String)
    (hP : ∃ ev ∈ events, ev.Package = P) :
    ∃ s, suitesNamed (report.testSuites events) P = [s] ∧
      s.TestCases.map (fun tc => (tc.Classname, tc.Name,
          tc.Failure.map (fun f => (f.Typ, f.Message)))) =
        (events.filter (fun ev => decide (ev.Package = P) && isCase ev)).map
          (fun ev => (P, ev.Test,
            if ev.Action = "fail" then some ("go.error", "error") else none)) := by
  refine ⟨_, report.suitesNamed_eq events P hP, ?_⟩
  rw [report.suite_TestCases]
  have h := congrArg (List.map (fun x : String × String × Nat × Option (String × String) =>
    (x.1, x.2.1, x.2.2.2)))
    (expectedCases_core events P (events.filter (fun ev => ev.Package = P)))
  simp only [List.map_map, List.filter_filter] at h
  rw [show (events.filter (fun ev => decide (ev.Package = P) && isCase ev)) =
      events.filter (fun a => isCase a && decide (a.Package = P)) from
    List.filter_congr (fun x _ => Bool.and_comm _ _)]
  exact h

theorem C4_failure_iff_fail_event_witness :
    (∃ ev ∈ sampleEvents, ev.Package = "p") ∧
    ∃ s, suitesNamed (report.testSuites sampleEvents) "p" = [s] ∧
      s.TestCases.map (fun tc => (tc.Classname, tc.Name,
          tc.Failure.map (fun f => (f.Typ, f.Message)))) =
        (sampleEvents.filter (fun ev => decide (ev.Package = "p") && isCase ev)).map
          (fun ev => ("p", ev.Test,
            if ev.Action = "fail" then some ("go.error", "error") else none)) :=
  ⟨⟨⟨"TestA", 3, "run", "p", ""⟩, by decide, rfl⟩,
    C4_failure_iff_fail_event sampleEvents "p" ⟨⟨"TestA", 3, "run", "p", ""⟩, by decide, rfl⟩⟩

/-- C5, as the code has it: a `pass` event with an empty test field is not counted, so
the test count of its suite is below the number of `pass` events of the package. -/
theorem C5_package_level_pass_counterexample :
    (∀ ev ∈ passEvents, ev.Action = "pass") ∧
    ∃ s ∈ report.testSuites passEvents,
      s.Tests ≠ (passEvents.filter (fun ev =>
        decide (ev.Package = s.Name) && decide (ev.Action = "pass"))).length := by
  refine ⟨by decide, ⟨"p", 2, 0, 0, 0,
    [⟨"p", "TestA", 3, none⟩, ⟨"p", "TestC", 2, none⟩]⟩, by decide, by decide⟩

/-- C5, amended: when every event has action `pass`, there is one suite per distinct
package, in first-occurrence order, and each suite has failure count 0, skip count 0, no
test case with a failure, and a test count equal to the number of `pass` events of its
package that have a non-empty test field. -/
theorem C5_all_pass (events : List testEvent) (hpass : ∀ ev ∈ events, ev.Action = "pass") :
    (report.testSuites events).map (fun s => s.Name) =
        firstOccurrences (events.map (fun ev => ev.Package)) ∧
      ∀ s ∈ report.testSuites events,
        s.Failures = 0 ∧ s.Skip = 0 ∧ (∀ tc ∈ s.TestCases, tc.Failure = none) ∧
        s.Tests = (events.filter (fun ev =>
          decide (ev.Package = s.Name) && decide (ev.Action = "pass") &&
            decide (ev.Test ≠ ""))).length := by
  refine ⟨report.testSuites_names events, ?_⟩
  intro s hs
  obtain ⟨_, hseq⟩ := report.mem_testSuites events s hs
  generalize s.Name = P at hseq
  subst hseq
  obtain ⟨h1, h2, h3⟩ := report.suite_counts events P (events.filter (fun ev => ev.Package = P))
  have hl : ∀ ev ∈ events.filter (fun ev => ev.Package = P), ev.Action = "pass" :=
    fun ev hev => hpass ev (List.mem_filter.1 hev).1
  refine ⟨?_, ?_, ?_, ?_⟩
  · rw [h2, List.length_eq_zero, List.filter_eq_nil_iff]
    intro ev hev
    simp [isFail, hl ev hev]
  · rw [h3, List.length_eq_zero, List.filter_eq_nil_iff]
    intro ev hev
    simp [hl ev hev]
  · intro tc htc
    rw [report.suite_TestCases] at htc
    have hcore := expectedCases_core events P (events.filter (fun ev => ev.Package = P))
    have hmem : (tc.Classname, tc.Name, tc.Time, tc.Failure.map (fun f => (f.Typ, f.Message))) ∈
        (expectedCases events P (events.filter (fun ev => ev.Package = P))).map
          (fun tc => (tc.Classname, tc.Name, tc.Time,
            tc.Failure.map (fun f => (f.Typ, f.Message)))) :=
      List.mem_map.2 ⟨tc, htc, rfl⟩
    rw [hcore, List.mem_map] at hmem
    obtain ⟨ev, hev, heq⟩ := hmem
    have hp := hl ev (List.mem_filter.1 hev).1
    simp only [hp, Prod.mk.injEq] at heq
    have h4 := heq.2.2.2
    cases hF : tc.Failure with
    | none => rfl
    | some f => rw [hF] at h4; simp at h4
  · rw [h1, List.filter_filter]
    congr 1
    apply List.filter_congr
    intro ev hev
    have hp := hpass ev hev
    by_cases ht : ev.Test = "" <;> by_cases hq : ev.Package = P <;> simp [isCase, hp, ht, hq]

theorem C5_all_pass_witness :
    (∀ ev ∈ passEvents, ev.Action = "pass") ∧
    ((report.testSuites passEvents).map (fun s => s.Name) =
        firstOccurrences (passEvents.map (fun ev => ev.Package)) ∧
      ∀ s ∈ report.testSuites passEvents,
        s.Failures = 0 ∧ s.Skip = 0 ∧ (∀ tc ∈ s.TestCases, tc.Failure = none) ∧
        s.Tests = (passEvents.filter (fun ev =>
          decide (ev.Package = s.Name) && decide (ev.Action = "pass") &&
            decide (ev.Test ≠ ""))).length) :=
  ⟨by decide, C5_all_pass passEvents (by decide)⟩

/-- C6: on the three events of the round-trip scenario `report` builds exactly one suite,
named `pkg`, with tests 2, errors 0, failures 1, skip 0 and the test cases `A`, without a
failure, and `B`, with a failure of type `go.error`, message `error` and body
`assertion failed\n`, in this order. -/
theorem C6_round_trip :
    report.testSuites roundTripEvents =
      [⟨"pkg", 2, 0, 1, 0,
        [⟨"pkg", "A", 0x3F847AE147AE147B, none⟩,
         ⟨"pkg", "B", 0x3F947AE147AE147B,
           some ⟨"go.error", "error", "assertion failed\n"⟩⟩]⟩] := by
  decide

/-- C7: let `T` have a `fail` event in package `P`, and let a second event sequence differ
from the first only in `output` events whose test is not `T` (any number of them added,
removed or changed). Then suite `P` exists for both, its test cases named `T` are the same
in both, failures and their bodies included, and so is the failure registered for `T`; and
when no `output` event has test `T`, every failure of a test case named `T` has an empty
body. -/
theorem C7_isolation_by_test_name (events events' : List testEvent) (P T : String)
    (hfail : ∃ ev ∈ events, ev.Package = P ∧ ev.Test = T ∧ ev.Action = "fail")
    (hsame : events.filter (notForeignOutput T) = events'.filter (notForeignOutput T)) :
    ∃ s s', suitesNamed (report.testSuites events) P = [s] ∧
      suitesNamed (report.testSuites events') P = [s'] ∧
      s.TestCases.filter (fun tc => tc.Name = T) =
        s'.TestCases.filter (fun tc => tc.Name = T) ∧
      registeredFailure T s.TestCases = registeredFailure T s'.TestCases ∧
      ((∀ ev ∈ events, ev.Action = "output" → ev.Test ≠ T) →
        ∀ tc ∈ s.TestCases, tc.Name = T → ∀ f, tc.Failure = some f → f.Output = "") := by
  obtain ⟨ev, hev, hp, ht, ha⟩ := hfail
  have hkeep : notForeignOutput T ev = true := by simp [notForeignOutput, ht]
  have hev' : ev ∈ events' := by
    have : ev ∈ events.filter (notForeignOutput T) := List.mem_filter.2 ⟨hev, hkeep⟩
    rw [hsame] at this
    exact (List.mem_filter.1 this).1
  have hl : (events.filter (fun ev => ev.Package = P)).filter (fun ev => ev.Test = T) =
      (events'.filter (fun ev => ev.Package = P)).filter (fun ev => ev.Test = T) := by
    rw [List.filter_filter, List.filter_filter,
      filter_through (notForeignOutput T) _ events, filter_through (notForeignOutput T) _ events',
      hsame]
    · intro x hx
      simp only [Bool.and_eq_true, decide_eq_true_eq] at hx
      simp [notForeignOutput, hx.1]
    · intro x hx
      simp only [Bool.and_eq_true, decide_eq_true_eq] at hx
      simp [notForeignOutput, hx.1]
  have hbody : expectedBody events T = expectedBody events' T := by
    have hthrough : ∀ x, isOutputOf T x = true → notForeignOutput T x = true := by
      intro x hx
      simp only [isOutputOf, Bool.and_eq_true, decide_eq_true_eq] at hx
      simp [notForeignOutput, hx.1.2]
    rw [expectedBody, expectedBody, filter_through (notForeignOutput T) _ events hthrough,
      filter_through (notForeignOutput T) _ events' hthrough, hsame]
  have hrec : (report.suite events P (events.filter (fun ev => ev.Package = P))).TestCases.filter
        (fun tc => tc.Name = T) =
      (report.suite events' P (events'.filter (fun ev => ev.Package = P))).TestCases.filter
        (fun tc => tc.Name = T) := by
    rw [report.suite_TestCases, report.suite_TestCases, expectedCases_filter_name,
      expectedCases_filter_name, hl]
    apply expectedCases_congr
    intro e he
    have : e.Test = T := by simpa using (List.mem_filter.1 he).2
    rw [this, hbody]
  refine ⟨_, _, report.suitesNamed_eq events P ⟨ev, hev, hp⟩,
    report.suitesNamed_eq events' P ⟨ev, hev', hp⟩, hrec, ?_, ?_⟩
  · rw [registeredFailure_filter, hrec, ← registeredFailure_filter]
  · intro hno tc htc hname f hf
    rw [report.suite_TestCases] at htc
    rcases expectedCases_body events P _ tc f htc hf with h | h
    · exact h
    · rw [h, hname]
      apply concatOutputs_filter_false
      intro e he
      by_cases ho : e.Action = "output"
      · simp [isOutputOf, hno e he ho]
      · simp [isOutputOf, ho]

theorem C7_isolation_by_test_name_witness :
    ((∃ ev ∈ sampleEvents, ev.Package = "p" ∧ ev.Test = "TestA" ∧ ev.Action = "fail") ∧
      sampleEvents.filter (notForeignOutput "TestA") =
        sampleEventsAltered.filter (notForeignOutput "TestA")) ∧
    ∃ s s', suitesNamed (report.testSuites sampleEvents) "p" = [s] ∧
      suitesNamed (report.testSuites sampleEventsAltered) "p" = [s'] ∧
      s.TestCases.filter (fun tc => tc.Name = "TestA") =
        s'.TestCases.filter (fun tc => tc.Name = "TestA") ∧
      registeredFailure "TestA" s.TestCases = registeredFailure "TestA" s'.TestCases ∧
      ((∀ ev ∈ sampleEvents, ev.Action = "output" → ev.Test ≠ "TestA") →
        ∀ tc ∈ s.TestCases, tc.Name = "TestA" → ∀ f, tc.Failure = some f → f.Output = "") :=
  ⟨⟨⟨⟨"TestA", 5, "fail", "p", ""⟩, by decide, rfl, rfl, rfl⟩, by decide⟩,
    C7_isolation_by_test_name sampleEvents sampleEventsAltered "p" "TestA"
      ⟨⟨"TestA", 5, "fail", "p", ""⟩, by decide, rfl, rfl, rfl⟩ (by decide)⟩

/-- C8, as the code has it: the filter looks at the text of an `output` event as a whole,
so a text of two lines whose second line begins with `=== RUN` is appended to the body. -/
theorem C8_two_line_output_counterexample :
    ∃ s ∈ report.testSuites twoLineEvents, ∃ tc ∈ s.TestCases, ∃ f, tc.Failure = some f ∧
      ∃ line ∈ bodyLines f.Output, hasPrefix line "=== RUN" = true := by
  refine ⟨⟨"p", 1, 0, 1, 0,
      [⟨"p", "TestA", 5, some ⟨"go.error", "error", "setup\n=== RUN   helper\n"⟩⟩]⟩,
    by decide, ⟨"p", "TestA", 5, some ⟨"go.error", "error", "setup\n=== RUN   helper\n"⟩⟩,
    by decide, ⟨"go.error", "error", "setup\n=== RUN   helper\n"⟩, rfl,
    "=== RUN   helper", by decide, by decide⟩

/-- C8, amended: when the text of every `output` event is one whole line (it ends in a
newline and holds no other), no line of any failure body begins with `=== RUN` or
contains `--- FAIL`. -/
theorem C8_no_framing_line (events : List testEvent)
    (hline : ∀ ev ∈ events, ev.Action = "output" → oneLine ev.Output = true) :
    ∀ s ∈ report.testSuites events, ∀ tc ∈ s.TestCases, ∀ f, tc.Failure = some f →
      ∀ line ∈ bodyLines f.Output,
        hasPrefix line "=== RUN" = false ∧ contains line "--- FAIL" = false := by
  intro s hs tc htc f hf line hmem
  obtain ⟨_, hseq⟩ := report.mem_testSuites events s hs
  rw [hseq, report.suite_TestCases] at htc
  have hempty : hasPrefix "" "=== RUN" = false ∧ contains "" "--- FAIL" = false := by
    constructor <;> decide
  rcases expectedCases_body events s.Name _ tc f htc hf with h | h
  · rw [h] at hmem
    have : line = "" := by simpa [bodyLines, splitLines, splitSep] using hmem
    rw [this]; exact hempty
  · rw [h, expectedBody, bodyLines, splitLines_concatOutputs] at hmem
    · simp only [List.map_append, List.map_map, List.map_cons, List.map_nil, List.mem_append,
        List.mem_map, List.mem_singleton] at hmem
      rcases hmem with ⟨ev, hev, rfl⟩ | rfl
      · have hnoise : isNoise ev.Output = false := by
          have := (List.mem_filter.1 hev).2
          simp only [isOutputOf, Bool.and_eq_true, Bool.not_eq_true'] at this
          exact this.2
        simp only [isNoise, Bool.or_eq_false_iff] at hnoise
        constructor
        · show hasPrefix ⟨ev.Output.data.dropLast⟩ "=== RUN" = false
          cases hc : hasPrefix ⟨ev.Output.data.dropLast⟩ "=== RUN" with
          | false => rfl
          | true => rw [hasPrefix_of_dropLast _ _ hc] at hnoise; exact absurd hnoise.1 (by simp)
        · show contains ⟨ev.Output.data.dropLast⟩ "--- FAIL" = false
          cases hc : contains ⟨ev.Output.data.dropLast⟩ "--- FAIL" with
          | false => rfl
          | true => rw [contains_of_dropLast _ _ hc] at hnoise; exact absurd hnoise.2 (by simp)
      · exact hempty
    · intro ev hev
      obtain ⟨h1, h2⟩ := List.mem_filter.1 hev
      simp only [isOutputOf, Bool.and_eq_true, decide_eq_true_eq] at h2
      exact hline ev h1 h2.1.1

theorem C8_no_framing_line_witness :
    (∀ ev ∈ sampleEvents, ev.Action = "output" → oneLine ev.Output = true) ∧
    ∀ s ∈ report.testSuites sampleEvents, ∀ tc ∈ s.TestCases, ∀ f, tc.Failure = some f →
      ∀ line ∈ bodyLines f.Output,
        hasPrefix line "=== RUN" = false ∧ contains line "--- FAIL" = false :=
  ⟨by decide, C8_no_framing_line sampleEvents (by decide)⟩

/-- C9, as the code has it: an event with an empty package field creates a suite, whose
name is empty. -/
theorem C9_empty_package_counterexample :
    ∃ s ∈ report.testSuites [⟨"TestA", 0, "pass", "", ""⟩], s.Name = "" := by
  decide

/-- C9, amended: a suite exists for exactly the package values of the events, the empty
one included, and for each of them once. -/
theorem C9_suite_per_package_value (events : List testEvent) (P : String) :
    ((∃ s ∈ report.testSuites events, s.Name = P) ↔ ∃ ev ∈ events, ev.Package = P) ∧
      (suitesNamed (report.testSuites events) P).length ≤ 1 := by
  have hiff : (∃ s ∈ report.testSuites events, s.Name = P) ↔ ∃ ev ∈ events, ev.Package = P := by
    constructor
    · rintro ⟨s, hs, rfl⟩
      exact (report.mem_testSuites events s hs).1
    · intro h
      have hmem : report.suite events P (events.filter (fun ev => ev.Package = P)) ∈
          suitesNamed (report.testSuites events) P := by
        rw [report.suitesNamed_eq events P h]; simp
      exact ⟨_, (List.mem_filter.1 hmem).1, rfl⟩
  refine ⟨hiff, ?_⟩
  by_cases h : ∃ ev ∈ events, ev.Package = P
  · rw [report.suitesNamed_eq events P h]; simp
  · have : suitesNamed (report.testSuites events) P = [] := by
      rw [suitesNamed, List.filter_eq_nil_iff]
      intro s hs hn
      exact h (hiff.1 ⟨s, hs, by simpa using hn⟩)
    rw [this]; simp

/-- C10, as the code has it: an empty line is not skipped, it is handed to the decoder,
which rejects it; on `{}\n\n{}\n` every non-empty line decodes, yet the loop stops at the
empty line with a decode error instead of returning the two decoded events. -/
theorem C10_empty_line_counterexample :
    (∀ l ∈ bufferLines emptyLineBuffer, l ≠ [] → (braceDecoder.unmarshal l).isSome = true) ∧
    runTests.parse braceDecoder emptyLineBuffer =
      ([⟨"", 0, "", "", ""⟩], some parseError.decodeError) ∧
    (((bufferLines emptyLineBuffer).filter (fun l => l ≠ [])).filterMap braceDecoder.unmarshal,
        (none : Option parseError)) =
      ([⟨"", 0, "", "", ""⟩, ⟨"", 0, "", "", ""⟩], none) := by
  refine ⟨by decide, by decide, by decide⟩

/-- C10, amended: when every line of the captured buffer, the empty ones included, decodes
as an event and is shorter than the token limit of the scanner (65536 bytes), the parsing
loop ends without error and returns the decoded lines, one event per line in line
order. -/
theorem C10_parse_returns_decoded_lines (d : Decoder) (buf : List Nat)
    (hshort : ∀ l ∈ rawLines buf, l.length < maxScanTokenSize)
    (hdec : ∀ l ∈ bufferLines buf, (d.unmarshal l).isSome = true) :
    ∃ events, runTests.parse d buf = (events, none) ∧
      events.map some = (bufferLines buf).map d.unmarshal := by
  have hscan := scanTokens_eq buf [] (by simp) (by simpa using hshort)
  simp only [List.nil_append] at hscan
  obtain ⟨more, h1, h2⟩ := runTests.parseLoop_eq d none (bufferLines buf) [] hdec
  refine ⟨more, ?_, h2⟩
  rw [runTests.parse, hscan]
  simpa [bufferLines] using h1

theorem C10_parse_returns_decoded_lines_witness :
    ((∀ l ∈ rawLines twoLineBuffer, l.length < maxScanTokenSize) ∧
      (∀ l ∈ bufferLines twoLineBuffer, (braceDecoder.unmarshal l).isSome = true)) ∧
    ∃ events, runTests.parse braceDecoder twoLineBuffer = (events, none) ∧
      events.map some = (bufferLines twoLineBuffer).map braceDecoder.unmarshal :=
  ⟨⟨by decide, by decide⟩,
    C10_parse_returns_decoded_lines braceDecoder twoLineBuffer (by decide) (by decide)⟩

/-- C11, as the code has it: on a decode error `runTests` returns at once with its named
results as they stand, so the events decoded before the bad line are returned with the
error; on `{}\nx\n{}\n` the returned list holds one event. -/
theorem C11_decoded_events_returned_counterexample :
    (∃ l ∈ bufferLines badLineBuffer, braceDecoder.unmarshal l = none) ∧
    runTests braceDecoder badLineWorld =
      ([⟨"", 0, "", "", ""⟩], 1, some (runError.parse parseError.decodeError)) := by
  refine ⟨⟨[120], by decide, by decide⟩, by decide⟩

/-- C11, amended: when the child was started, the file rewound and every line of the
captured buffer is shorter than the token limit of the scanner, a line that fails to decode
after lines that decode makes `runTests` return a decode error together with the events
decoded from the lines before it, in order; `main` then ends without calling `report`. -/
theorem C11_decode_error_keeps_decoded_events (d : Decoder) (enc : Encoder) (w : World)
    (pre post : List (List Nat)) (bad : List Nat)
    (htemp : w.tempFileOk = true)
    (hrun : (w.child (runTests.forward w.cmdArgs)).1 ≠ runResult.otherError)
    (hseek : w.seekOk = true)
    (hshort : ∀ l ∈ rawLines (w.child (runTests.forward w.cmdArgs)).2,
      l.length < maxScanTokenSize)
    (hlines : bufferLines (w.child (runTests.forward w.cmdArgs)).2 = pre ++ bad :: post)
    (hpre : ∀ l ∈ pre, (d.unmarshal l).isSome = true) (hbad : d.unmarshal bad = none) :
    (runTests d w).2.2 = some (runError.parse parseError.decodeError) ∧
      (runTests d w).1.map some = pre.map d.unmarshal ∧
      main d enc w = mainResult.fatalBeforeReport (runError.parse parseError.decodeError) := by
  obtain ⟨h1, h2⟩ := runTests.of_started d w htemp hrun hseek
  obtain ⟨events, h3, h4⟩ := runTests.parse_bad d _ pre post bad hshort hlines hpre hbad
  have herr : (runTests d w).2.2 = some (runError.parse parseError.decodeError) := by
    rw [h2, h3]; rfl
  refine ⟨herr, ?_, ?_⟩
  · rw [h1, h3]; exact h4
  · simp only [main, herr]

theorem C11_decode_error_keeps_decoded_events_witness :
    (badLineWorld.tempFileOk = true ∧
      (badLineWorld.child (runTests.forward badLineWorld.cmdArgs)).1 ≠ runResult.otherError ∧
      badLineWorld.seekOk = true ∧
      (∀ l ∈ rawLines (badLineWorld.child (runTests.forward badLineWorld.cmdArgs)).2,
        l.length < maxScanTokenSize) ∧
      bufferLines (badLineWorld.child (runTests.forward badLineWorld.cmdArgs)).2 =
        [[123, 125]] ++ [120] :: [[123, 125]] ∧
      (∀ l ∈ [[123, 125]], (braceDecoder.unmarshal l).isSome = true) ∧
      braceDecoder.unmarshal [120] = none) ∧
    ((runTests braceDecoder badLineWorld).2.2 =
        some (runError.parse parseError.decodeError) ∧
      (runTests braceDecoder badLineWorld).1.map some =
        [[123, 125]].map braceDecoder.unmarshal ∧
      main braceDecoder blankEncoder badLineWorld =
        mainResult.fatalBeforeReport (runError.parse parseError.decodeError)) :=
  ⟨⟨rfl, by decide, rfl, by decide, by decide, by decide, by decide⟩,
    C11_decode_error_keeps_decoded_events braceDecoder blankEncoder badLineWorld
      [[123, 125]] [[123, 125]] [120] rfl (by decide) rfl (by decide) (by decide)
      (by decide) (by decide)⟩

/-- C12: for a command line `prog :: rest`, the arguments handed to the test runner are
`test`, `-json`, then the elements of `rest` other than `-json` in their order; `-json`
occurs in them exactly once, and an argument that differs from `-json`, such as `--json`
or `-json=true`, is forwarded as often as it was given. -/
theorem C12_forwarded_arguments (prog : String) (rest : List String) :
    runTests.args (prog :: rest) =
        some ("test" :: "-json" :: rest.filter (fun a => a ≠ "-json")) ∧
      ∀ args, runTests.args (prog :: rest) = some args →
        args.count "-json" = 1 ∧
        ∀ a, a ≠ "-json" → a ≠ "test" → args.count a = rest.count a := by
  have heq : runTests.args (prog :: rest) =
      some ("test" :: "-json" :: rest.filter (fun a => a ≠ "-json")) := by
    rw [runTests.args, runTests.forward_eq]
  refine ⟨heq, ?_⟩
  intro args hargs
  rw [heq] at hargs
  simp only [Option.some.injEq] at hargs
  subst hargs
  constructor
  · have : (rest.filter (fun a => a ≠ "-json")).count "-json" = 0 := by
      rw [List.count_eq_zero]
      intro hmem
      simpa using (List.mem_filter.1 hmem).2
    rw [List.count_cons, List.count_cons, this]
    decide
  · intro a ha ht
    have h1 : ("test" == a) = false := by simpa using fun h => ht h.symm
    have h2 : ("-json" == a) = false := by simpa using fun h => ha h.symm
    rw [List.count_cons, List.count_cons, h1, h2, List.count_filter (by simpa using ha)]
    simp

/-- C13: when `runTests` returns an error, `main` ends in `log.Fatal` without calling
`report`, and a temporary file that cannot be created, a child that cannot be started, a
file that cannot be rewound and a buffer that does not parse each make `runTests` return
an error; when `runTests` returns no error and `report` writes its document, `main` ends
with the document on standard output and the exit code `runTests` returned; and an exit
error of the child with code `c` is no error of `runTests`, which returns `c` as exit
code. -/
theorem C13_exit_code_and_fatal_paths (d : Decoder) (enc : Encoder) (w : World) :
    (∀ e, (runTests d w).2.2 = some e → main d enc w = mainResult.fatalBeforeReport e) ∧
    ((w.tempFileOk = false ∨
        (w.child (runTests.forward w.cmdArgs)).1 = runResult.otherError ∨
        w.seekOk = false ∨
        (runTests.parse d (w.child (runTests.forward w.cmdArgs)).2).2 ≠ none) →
      (runTests d w).2.2 ≠ none) ∧
    (∀ out, (runTests d w).2.2 = none →
      report enc w.headerOk w.encodeOk (runTests d w).1 = some out →
      main d enc w = mainResult.exited out (runTests d w).2.1) ∧
    (∀ c, w.tempFileOk = true → w.seekOk = true →
      (w.child (runTests.forward w.cmdArgs)).1 = runResult.exitError c →
      (runTests.parse d (w.child (runTests.forward w.cmdArgs)).2).2 = none →
      (runTests d w).2.1 = c ∧ (runTests d w).2.2 = none) := by
  refine ⟨?_, ?_, ?_, ?_⟩
  · intro e he
    simp only [main, he]
  · intro h
    cases htemp : w.tempFileOk with
    | false => simp [runTests, htemp]
    | true =>
      cases hr : (w.child (runTests.forward w.cmdArgs)).1 with
      | otherError => simp [runTests, htemp, hr]
      | exitError code =>
        cases hseek : w.seekOk with
        | false => simp [runTests, htemp, hr, hseek]
        | true =>
          have hstarted := (runTests.of_started d w htemp (by rw [hr]; simp) hseek).2
          rcases h with h | h | h | h
          · rw [htemp] at h; cases h
          · rw [hr] at h; cases h
          · rw [hseek] at h; cases h
          · rw [hstarted]
            cases hp : (runTests.parse d (w.child (runTests.forward w.cmdArgs)).2).2 with
            | none => exact absurd hp h
            | some e => simp
      | success =>
        cases hseek : w.seekOk with
        | false => simp [runTests, htemp, hr, hseek]
        | true =>
          have hstarted := (runTests.of_started d w htemp (by rw [hr]; simp) hseek).2
          rcases h with h | h | h | h
          · rw [htemp] at h; cases h
          · rw [hr] at h; cases h
          · rw [hseek] at h; cases h
          · rw [hstarted]
            cases hp : (runTests.parse d (w.child (runTests.forward w.cmdArgs)).2).2 with
            | none => exact absurd hp h
            | some e => simp
  · intro out herr hrep
    simp only [main, herr, hrep]
  · intro c htemp hseek hr hp
    simp [runTests, htemp, hseek, hr, hp]

theorem C13_exit_code_and_fatal_paths_witness :
    main braceDecoder blankEncoder launchFailureWorld =
        mainResult.fatalBeforeReport runError.launch ∧
      main braceDecoder blankEncoder failedTestsWorld = mainResult.exited xmlHeader 1 :=
  ⟨(C13_exit_code_and_fatal_paths braceDecoder blankEncoder launchFailureWorld).1
      runError.launch (by decide),
    by
      have h := (C13_exit_code_and_fatal_paths braceDecoder blankEncoder
        failedTestsWorld).2.2.1 xmlHeader (by decide) (by decide)
      rw [h]
      decide⟩

set_option maxRecDepth 100000

/-- C14, as the code has it: the body is handed to the encoder as `CDATA`, which writes
no character-data block for an empty body and breaks a block at every `]]>`. A test that
fails without output has a failure, yet the written document holds no `<![CDATA[` at all;
and a body `a]]>b` does not stand in the written document as it is. -/
theorem C14_character_data_counterexample :
    ((∃ s ∈ report.testSuites silentFailureEvents, ∃ tc ∈ s.TestCases,
        tc.Failure = some ⟨"go.error", "error", ""⟩) ∧
      report (goEncoder formatFloatSample) true true silentFailureEvents =
        some ("<?xml version=\"1.0\" encoding=\"UTF-8\"?>\n" ++
          "<testsuites>\n" ++
          "    <testsuite name=\"pkg\" tests=\"1\" errors=\"0\" failures=\"1\" skip=\"0\">\n" ++
          "        <testcase classname=\"pkg\" name=\"A\" time=\"0.02\">\n" ++
          "            <failure type=\"go.error\" message=\"error\"></failure>\n" ++
          "        </testcase>\n" ++
          "    </testsuite>\n" ++
          "</testsuites>") ∧
      ∀ out, report (goEncoder formatFloatSample) true true silentFailureEvents = some out →
        contains out "<![CDATA[" = false) ∧
    ((∃ s ∈ report.testSuites cdataEndEvents, ∃ tc ∈ s.TestCases,
        tc.Failure = some ⟨"go.error", "error", "a]]>b"⟩) ∧
      report (goEncoder formatFloatSample) true true cdataEndEvents =
        some ("<?xml version=\"1.0\" encoding=\"UTF-8\"?>\n" ++
          "<testsuites>\n" ++
          "    <testsuite name=\"pkg\" tests=\"1\" errors=\"0\" failures=\"1\" skip=\"0\">\n" ++
          "        <testcase classname=\"pkg\" name=\"A\" time=\"0.02\">\n" ++
          "            <failure type=\"go.error\" message=\"error\">" ++
          "<![CDATA[a]]]]><![CDATA[>b]]></failure>\n" ++
          "        </testcase>\n" ++
          "    </testsuite>\n" ++
          "</testsuites>") ∧
      ∀ out, report (goEncoder formatFloatSample) true true cdataEndEvents = some out →
        contains out "a]]>b" = false) := by
  refine ⟨⟨?_, by decide, ?_⟩, ⟨?_, by decide, ?_⟩⟩
  · exact ⟨⟨"pkg", 1, 0, 1, 0,
        [⟨"pkg", "A", 0x3F947AE147AE147B, some ⟨"go.error", "error", ""⟩⟩]⟩,
      by decide, ⟨"pkg", "A", 0x3F947AE147AE147B, some ⟨"go.error", "error", ""⟩⟩,
      by decide, rfl⟩
  · intro out hout
    have hval : report (goEncoder formatFloatSample) true true silentFailureEvents =
        some ("<?xml version=\"1.0\" encoding=\"UTF-8\"?>\n<testsuites>\n    <testsuite name=\"pkg\" tests=\"1\" errors=\"0\" failures=\"1\" skip=\"0\">\n        <testcase classname=\"pkg\" name=\"A\" time=\"0.02\">\n            <failure type=\"go.error\" message=\"error\"></failure>\n        </testcase>\n    </testsuite>\n</testsuites>") := by
      decide
    rw [hval] at hout
    simp only [Option.some.injEq] at hout
    subst hout
    decide
  · exact ⟨⟨"pkg", 1, 0, 1, 0,
        [⟨"pkg", "A", 0x3F947AE147AE147B, some ⟨"go.error", "error", "a]]>b"⟩⟩]⟩,
      by decide, ⟨"pkg", "A", 0x3F947AE147AE147B, some ⟨"go.error", "error", "a]]>b"⟩⟩,
      by decide, rfl⟩
  · intro out hout
    have hval : report (goEncoder formatFloatSample) true true cdataEndEvents =
        some ("<?xml version=\"1.0\" encoding=\"UTF-8\"?>\n<testsuites>\n    <testsuite name=\"pkg\" tests=\"1\" errors=\"0\" failures=\"1\" skip=\"0\">\n        <testcase classname=\"pkg\" name=\"A\" time=\"0.02\">\n            <failure type=\"go.error\" message=\"error\"><![CDATA[a]]]]><![CDATA[>b]]></failure>\n        </testcase>\n    </testsuite>\n</testsuites>") := by
      decide
    rw [hval] at hout
    simp only [Option.some.injEq] at hout
    subst hout
    decide

/-- C14, amended: when both writes succeed, `report` writes the XML header followed by one
root element `testsuites` that holds one `testsuite` element per suite, in order, with the
attributes `name`, `tests`, `errors`, `failures`, `skip`, each holding one `testcase`
element per test case, in order, with the attributes `classname`, `name`, `time`, and in
it a `failure` element, with the attributes `type` and `message`, exactly when the test
case has a failure. The body is written in the `failure` element without escaping: nothing
for an empty body, and the body as it is between `<![CDATA[` and `]]>` when it is not empty
and holds no `]]>`. -/
theorem C14_written_document (formatFloat : Nat → String) (events : List testEvent) :
    report (goEncoder formatFloat) true true events =
        some (xmlHeader ++ documentText formatFloat (report.testSuites events)) ∧
      emitCDATA "" = "" ∧
      ∀ body, body ≠ "" → contains body "]]>" = false →
        emitCDATA body = "<![CDATA[" ++ body ++ "]]>" := by
  refine ⟨?_, rfl, emitCDATA_of_no_end⟩
  simp only [report, report.document, goEncoder_documentOf]
  simp

theorem C14_written_document_witness :
    report (goEncoder formatFloatSample) true true roundTripEvents =
      some ("<?xml version=\"1.0\" encoding=\"UTF-8\"?>\n" ++
        "<testsuites>\n" ++
        "    <testsuite name=\"pkg\" tests=\"2\" errors=\"0\" failures=\"1\" skip=\"0\">\n" ++
        "        <testcase classname=\"pkg\" name=\"A\" time=\"0.01\"></testcase>\n" ++
        "        <testcase classname=\"pkg\" name=\"B\" time=\"0.02\">\n" ++
        "            <failure type=\"go.error\" message=\"error\">" ++
        "<![CDATA[assertion failed\n]]></failure>\n" ++
        "        </testcase>\n" ++
        "    </testsuite>\n" ++
        "</testsuites>") := by
  rw [(C14_written_document formatFloatSample roundTripEvents).1]
  decide

set_option maxRecDepth 512

/-- C15: two runs of `report` on the same events, whatever layout the runtime gives the
maps in either, end with the same suites, which are the suites the aggregation computes
as a function of the event sequence, and so with the same document, byte for byte. -/
theorem C15_runs_agree (enc : Encoder) (events : List testEvent)
    (suites suites' : List testSuite)
    (h : report.Run events suites) (h' : report.Run events suites') :
    suites = suites' ∧ suites = report.testSuites events ∧
      xmlHeader ++ enc.encode (report.documentOf suites) =
        xmlHeader ++ enc.encode (report.documentOf suites') ∧
      some (xmlHeader ++ enc.encode (report.documentOf suites)) =
        report enc true true events := by
  have e1 := report.Run_eq events suites h
  have e2 := report.Run_eq events suites' h'
  subst e1 e2
  exact ⟨rfl, rfl, rfl, by simp [report, report.document]⟩

theorem C15_runs_agree_witness :
    (report.Run layoutEvents layoutSuites ∧
      report.Run layoutEvents (report.testSuites layoutEvents)) ∧
    (layoutSuites = report.testSuites layoutEvents ∧
      layoutSuites = report.testSuites layoutEvents ∧
      xmlHeader ++ blankEncoder.encode (report.documentOf layoutSuites) =
        xmlHeader ++ blankEncoder.encode
          (report.documentOf (report.testSuites layoutEvents)) ∧
      some (xmlHeader ++ blankEncoder.encode (report.documentOf layoutSuites)) =
        report blankEncoder true true layoutEvents) :=
  ⟨⟨report.Run_layoutSwapped, report.Run_testSuites layoutEvents⟩,
    C15_runs_agree blankEncoder layoutEvents _ _ report.Run_layoutSwapped
      (report.Run_testSuites layoutEvents)⟩

/-- C16: in every suite `report` builds, the errors count is 0, the test count is the
number of its test cases, the failure count is the number of its test cases that carry a
failure, the skip count is the number of `skip` events of its package with a non-empty
test, and failures plus skips do not exceed tests. -/
theorem C16_count_consistency (events : List testEvent) :
    ∀ s ∈ report.testSuites events,
      s.Errors = 0 ∧ s.Tests = s.TestCases.length ∧
      s.Failures = (s.TestCases.filter (fun tc => tc.Failure.isSome)).length ∧
      s.Skip = (events.filter (fun ev =>
        decide (ev.Package = s.Name) && decide (ev.Action = "skip") &&
          decide (ev.Test ≠ ""))).length ∧
      s.Failures + s.Skip ≤ s.Tests := by
  intro s hs
  obtain ⟨_, hseq⟩ := report.mem_testSuites events s hs
  generalize s.Name = P at hseq
  subst hseq
  obtain ⟨h1, h2, h3⟩ := report.suite_counts events P (events.filter (fun ev => ev.Package = P))
  refine ⟨rfl, ?_, ?_, ?_, ?_⟩
  · rw [h1, report.suite_TestCases, expectedCases_length]
  · rw [h2, report.suite_TestCases, expectedCases_failures]
  · rw [h3, List.filter_filter]
    congr 1
    apply List.filter_congr
    intro ev _
    by_cases ht : ev.Test = "" <;> by_cases hq : ev.Package = P <;>
      by_cases ha : ev.Action = "skip" <;> simp [isCase, ht, hq, ha, report.suite_Name]
  · rw [h1, h2, h3]
    exact fail_add_skip_le _

theorem C16_count_consistency_witness :
    twoPackageSuiteP ∈ report.testSuites twoPackageEvents ∧
    (twoPackageSuiteP.Errors = 0 ∧
      twoPackageSuiteP.Tests = twoPackageSuiteP.TestCases.length ∧
      twoPackageSuiteP.Failures =
        (twoPackageSuiteP.TestCases.filter (fun tc => tc.Failure.isSome)).length ∧
      twoPackageSuiteP.Skip = (twoPackageEvents.filter (fun ev =>
        decide (ev.Package = twoPackageSuiteP.Name) && decide (ev.Action = "skip") &&
          decide (ev.Test ≠ ""))).length ∧
      twoPackageSuiteP.Failures + twoPackageSuiteP.Skip ≤ twoPackageSuiteP.Tests) :=
  ⟨by decide, C16_count_consistency twoPackageEvents twoPackageSuiteP (by decide)⟩

/-- C17: in every suite, the test cases named `T` that carry a failure are as many as the
`fail` events of `T` in the package of the suite; the failure of each of them but the last
has an empty body, and the failure of the last has the body expected for `T`. -/
theorem C17_only_last_failure_gets_output (events : List testEvent) (T : String) :
    ∀ s ∈ report.testSuites events,
      (s.TestCases.filter (fun tc => decide (tc.Name = T) && tc.Failure.isSome)).map
          (fun tc => tc.Failure) =
        List.replicate
            ((events.filter (fun ev => decide (ev.Package = s.Name) && isFailOf T ev)).length - 1)
            (some ⟨"go.error", "error", ""⟩) ++
          (if (events.filter
              (fun ev => decide (ev.Package = s.Name) && isFailOf T ev)).length = 0 then []
            else [some ⟨"go.error", "error", expectedBody events T⟩]) := by
  intro s hs
  obtain ⟨_, hseq⟩ := report.mem_testSuites events s hs
  generalize s.Name = P at hseq
  subst hseq
  have hfilter : events.filter (fun ev => decide (ev.Package = P) && isFailOf T ev) =
      (events.filter (fun ev => ev.Package = P)).filter (isFailOf T) := by
    rw [List.filter_filter]
    apply List.filter_congr
    intro x _
    exact Bool.and_comm _ _
  rw [report.suite_TestCases, expectedCases_failed_records]
  simp only [report.suite_Name, hfilter]

theorem C17_only_last_failure_gets_output_witness :
    twoPackageSuiteP ∈ report.testSuites twoPackageEvents ∧
    (twoPackageSuiteP.TestCases.filter
        (fun tc => decide (tc.Name = "TestX") && tc.Failure.isSome)).map
          (fun tc => tc.Failure) =
      List.replicate
          ((twoPackageEvents.filter (fun ev =>
            decide (ev.Package = twoPackageSuiteP.Name) && isFailOf "TestX" ev)).length - 1)
          (some ⟨"go.error", "error", ""⟩) ++
        (if (twoPackageEvents.filter (fun ev =>
            decide (ev.Package = twoPackageSuiteP.Name) && isFailOf "TestX" ev)).length = 0
          then []
          else [some ⟨"go.error", "error", expectedBody twoPackageEvents "TestX"⟩]) :=
  ⟨by decide,
    C17_only_last_failure_gets_output twoPackageEvents "TestX" twoPackageSuiteP (by decide)⟩

/-- C18: when a test with the non-empty name `T` has a `fail` event in package `P` and one
in package `Q`, both suites exist and the failures registered for `T` in them have the
same body: the non-framing output of all `output` events named `T`, of whatever package. -/
theorem C18_correlation_ignores_package (events : List testEvent) (P Q T : String)
    (hT : T ≠ "")
    (hP : ∃ ev ∈ events, ev.Package = P ∧ ev.Test = T ∧ ev.Action = "fail")
    (hQ : ∃ ev ∈ events, ev.Package = Q ∧ ev.Test = T ∧ ev.Action = "fail") :
    ∃ sP sQ, suitesNamed (report.testSuites events) P = [sP] ∧
      suitesNamed (report.testSuites events) Q = [sQ] ∧
      registeredFailure T sP.TestCases =
        some ⟨"go.error", "error", expectedBody events T⟩ ∧
      registeredFailure T sQ.TestCases =
        some ⟨"go.error", "error", expectedBody events T⟩ := by
  have key : ∀ R, (∃ ev ∈ events, ev.Package = R ∧ ev.Test = T ∧ ev.Action = "fail") →
      suitesNamed (report.testSuites events) R =
          [report.suite events R (events.filter (fun ev => ev.Package = R))] ∧
        registeredFailure T
            (report.suite events R (events.filter (fun ev => ev.Package = R))).TestCases =
          some ⟨"go.error", "error", expectedBody events T⟩ := by
    rintro R ⟨ev, hev, hp, ht, ha⟩
    refine ⟨report.suitesNamed_eq events R ⟨ev, hev, hp⟩, ?_⟩
    rw [report.suite_TestCases, registeredFailure_expectedCases]
    have hany : (events.filter (fun ev => ev.Package = R)).any (isFailOf T) = true := by
      rw [List.any_eq_true]
      refine ⟨ev, List.mem_filter.2 ⟨hev, by simp [hp]⟩, ?_⟩
      simp [isFailOf, isFail, ht, ha, hT]
    rw [if_pos hany]
  exact ⟨_, _, (key P hP).1, (key Q hQ).1, (key P hP).2, (key Q hQ).2⟩

theorem C18_correlation_ignores_package_witness :
    ("TestX" ≠ "" ∧
      (∃ ev ∈ twoPackageEvents, ev.Package = "p" ∧ ev.Test = "TestX" ∧ ev.Action = "fail") ∧
      (∃ ev ∈ twoPackageEvents, ev.Package = "q" ∧ ev.Test = "TestX" ∧ ev.Action = "fail")) ∧
    ∃ sP sQ, suitesNamed (report.testSuites twoPackageEvents) "p" = [sP] ∧
      suitesNamed (report.testSuites twoPackageEvents) "q" = [sQ] ∧
      registeredFailure "TestX" sP.TestCases =
        some ⟨"go.error", "error", expectedBody twoPackageEvents "TestX"⟩ ∧
      registeredFailure "TestX" sQ.TestCases =
        some ⟨"go.error", "error", expectedBody twoPackageEvents "TestX"⟩ :=
  ⟨⟨by decide, ⟨⟨"TestX", 1, "fail", "p", ""⟩, by decide, rfl, rfl, rfl⟩,
      ⟨⟨"TestX", 2, "fail", "q", ""⟩, by decide, rfl, rfl, rfl⟩⟩,
    C18_correlation_ignores_package twoPackageEvents "p" "q" "TestX" (by decide)
      ⟨⟨"TestX", 1, "fail", "p", ""⟩, by decide, rfl, rfl, rfl⟩
      ⟨⟨"TestX", 2, "fail", "q", ""⟩, by decide, rfl, rfl, rfl⟩⟩

end GoTestXunit
